/-
Verification of the graph-algorithm core of depstat (kubernetes-sigs/depstat).

The Go sources are shallowly embedded: maps become association lists or
update functions, mutable state is threaded explicitly, and general
recursion is modelled with a fuel parameter (the Go functions terminate, so
any sufficiently large fuel reproduces their behaviour; the general theorems
below are proved for every fuel value).
-/
import Mathlib

namespace Depstat

/-- A Go `map[string][]string` adjacency map, as an association list.
Lookup of an absent key yields `[]`, like indexing a Go map whose value
type is a slice. -/
abbrev Graph := List (String × List String)

/-- `graph[v]` for a `Graph`: first matching entry, or `[]` when absent. -/
def adj (g : Graph) (v : String) : List String :=
  match g with
  | [] => []
  | (k, ds) :: rest => if k = v then ds else adj rest v

/-- Go `contains` (utils.go): linear membership scan over a string slice. -/
def contains (s : List String) (str : String) : Bool :=
  match s with
  | [] => false
  | v :: rest => if v = str then true else contains rest str

theorem contains_iff_mem (s : List String) (x : String) :
    contains s x = true ↔ x ∈ s := by
  induction s with
  | nil => simp [contains]
  | cons v rest ih =>
    by_cases h : v = x
    · subst h; simp [contains]
    · simp [contains, h, ih, Ne.symm h]

/-- A `Chain` (stats.go): an ordered sequence of module identifiers. -/
abbrev Chain := List String

/-- `p` is a chain of consecutive graph edges: every element is followed
by one of its adjacency-list successors. -/
def pathLinked (g : Graph) : List String → Prop
  | [] => True
  | [_] => True
  | a :: b :: rest => b ∈ adj g a ∧ pathLinked g (b :: rest)

instance pathLinkedDecidable (g : Graph) : ∀ l, Decidable (pathLinked g l)
  | [] => by unfold pathLinked; infer_instance
  | [_] => by unfold pathLinked; infer_instance
  | _ :: b :: rest =>
      have := pathLinkedDecidable g (b :: rest)
      by unfold pathLinked; infer_instance

/-- `p` is a simple (cycle-free) path in `g` starting at `s`. -/
def isSimplePathFrom (g : Graph) (s : String) (p : List String) : Prop :=
  p.head? = some s ∧ p.Nodup ∧ pathLinked g p

instance (g : Graph) (s : String) (p : List String) :
    Decidable (isSimplePathFrom g s p) := by
  unfold isSimplePathFrom; infer_instance

/-! ## Longest-Chain Engine (stats.go, `getLongestChain`)

The Go function threads a shared memo map `longestChains` and a
per-path `currentChain`; we model the memo as an association list and
the neighbour loop as a mutually recursive fold.  A `nil` Go chain is
modelled as `[]` (Go code only ever takes `len` of it or appends to it,
so the two are indistinguishable here). -/

abbrev Memo := List (String × Chain)

/-- Go memo-map lookup `longestChains[currentDep]`. -/
def mlookup (m : Memo) (k : String) : Option Chain :=
  match m with
  | [] => none
  | (k', c) :: rest => if k' = k then some c else mlookup rest k

/-- The `for _, dep := range deps` loop of `getLongestChain`: keeps the
longest child chain (first one found wins ties, as `>` is strict in Go)
and threads the memo map; `child` is the recursive call at one less fuel. -/
def getLongestChainDeps (child : String → Memo → (Chain × Memo)) :
    List String → Chain → Memo → (Chain × Memo)
  | [], best, memo => (best, memo)
  | dep :: rest, best, memo =>
    let q := child dep memo
    getLongestChainDeps child rest
      (if best.length < q.1.length then q.1 else best) q.2

/-- `getLongestChain` from stats.go, with explicit fuel and memo state.
Returns the chain and the updated memo map. -/
def getLongestChainGo (g : Graph) :
    Nat → String → Chain → Memo → (Chain × Memo)
  | 0, _, _, memo => ([], memo)
  | fuel + 1, currentDep, currentChain, memo =>
    match mlookup memo currentDep with
    | some c => (c, memo)
    | none =>
      let deps := adj g currentDep
      if deps = [] then
        ([currentDep], (currentDep, [currentDep]) :: memo)
      else if contains currentChain currentDep then
        ([], memo)
      else
        let p := getLongestChainDeps
          (fun dep m => getLongestChainGo g fuel dep (currentChain ++ [currentDep]) m)
          deps [] memo
        (currentDep :: p.1, (currentDep, currentDep :: p.1) :: p.2)

/-- The call in stats.go line 51: fresh chain, fresh memo map.  The fuel
`g.length + 2` dominates the recursion depth: every frame that recurses
into its dependencies puts a distinct key of `g` onto `currentChain`. -/
def getLongestChain (g : Graph) (start : String) : Chain :=
  (getLongestChainGo g (g.length + 2) start [] []).1

theorem mlookup_cons (k' : String) (c : Chain) (m : Memo) (k : String) :
    mlookup ((k', c) :: m) k = if k' = k then some c else mlookup m k := rfl

/-- Invariant on the shared memo map: every recorded chain is a simple
path headed by its key, and mentions only keys that are themselves
recorded. -/
def GoodMemo (g : Graph) (memo : Memo) : Prop :=
  ∀ k c, mlookup memo k = some c →
    c.head? = some k ∧ c.Nodup ∧ pathLinked g c ∧
      ∀ x ∈ c, mlookup memo x ≠ none

theorem goodMemo_nil (g : Graph) : GoodMemo g [] := by
  intro k c h
  simp [mlookup] at h

/-- Contract of one recursive call of `getLongestChain`, abstracted over
the memo state: the memo invariant is preserved, recorded entries are
never overwritten, nodes satisfying `P` (the nodes of the active chain)
never get recorded, and a non-nil result is a simple path headed by the
visited node, all of whose nodes are recorded. -/
def CallSpec (g : Graph) (P : String → Prop)
    (d : String) (m : Memo) (r : Chain × Memo) : Prop :=
  GoodMemo g r.2 ∧
  (∀ k c, mlookup m k = some c → mlookup r.2 k = some c) ∧
  (∀ x, P x → mlookup m x = none → mlookup r.2 x = none) ∧
  (r.1 ≠ [] →
    r.1.head? = some d ∧ r.1.Nodup ∧ pathLinked g r.1 ∧
      ∀ x ∈ r.1, mlookup r.2 x ≠ none)

/-- The dependency loop satisfies the same contract as its `child` calls:
the accumulator stays either nil or a recorded simple path headed by one
of the nodes of `ds0`. -/
theorem getLongestChainDeps_spec (g : Graph) (P : String → Prop)
    (child : String → Memo → (Chain × Memo)) (ds0 : List String)
    (hchild : ∀ d m, GoodMemo g m → CallSpec g P d m (child d m)) :
    ∀ ds best memo, (∀ d ∈ ds, d ∈ ds0) → GoodMemo g memo →
      (best = [] ∨ ((∃ d ∈ ds0, best.head? = some d) ∧ best.Nodup ∧
          pathLinked g best ∧ ∀ x ∈ best, mlookup memo x ≠ none)) →
      GoodMemo g (getLongestChainDeps child ds best memo).2 ∧
      (∀ k c, mlookup memo k = some c →
        mlookup (getLongestChainDeps child ds best memo).2 k = some c) ∧
      (∀ x, P x → mlookup memo x = none →
        mlookup (getLongestChainDeps child ds best memo).2 x = none) ∧
      ((getLongestChainDeps child ds best memo).1 = [] ∨
        ((∃ d ∈ ds0, (getLongestChainDeps child ds best memo).1.head? = some d) ∧
          (getLongestChainDeps child ds best memo).1.Nodup ∧
          pathLinked g (getLongestChainDeps child ds best memo).1 ∧
          ∀ x ∈ (getLongestChainDeps child ds best memo).1,
            mlookup (getLongestChainDeps child ds best memo).2 x ≠ none)) := by
  intro ds
  induction ds with
  | nil =>
    intro best memo _ hm hb
    exact ⟨hm, fun k c h => h, fun x _ h => h, hb⟩
  | cons d rest ih =>
    intro best memo hds hm hb
    obtain ⟨hq1, hq2, hq3, hq4⟩ := hchild d memo hm
    have hds' : ∀ x ∈ rest, x ∈ ds0 := fun x hx => hds x (List.mem_cons_of_mem _ hx)
    -- the new accumulator is still nil-or-good
    have hb' :
        (if best.length < (child d memo).1.length then (child d memo).1 else best) = [] ∨
        ((∃ e ∈ ds0,
            (if best.length < (child d memo).1.length then (child d memo).1 else best).head? = some e) ∧
          (if best.length < (child d memo).1.length then (child d memo).1 else best).Nodup ∧
          pathLinked g (if best.length < (child d memo).1.length then (child d memo).1 else best) ∧
          ∀ x ∈ (if best.length < (child d memo).1.length then (child d memo).1 else best),
            mlookup (child d memo).2 x ≠ none) := by
      split
      · rename_i hlt
        rcases eq_or_ne (child d memo).1 [] with hnil | hne
        · exact Or.inl hnil
        · obtain ⟨h1, h2, h3, h4⟩ := hq4 hne
          exact Or.inr ⟨⟨d, hds d (List.mem_cons_self _ _), h1⟩, h2, h3, h4⟩
      · rcases hb with hnil | ⟨h1, h2, h3, h4⟩
        · exact Or.inl hnil
        · refine Or.inr ⟨h1, h2, h3, fun x hx => ?_⟩
          intro hnone
          rcases hmem : mlookup memo x with _ | c
          · exact h4 x hx hmem
          · simp [hq2 x c hmem] at hnone
    obtain ⟨r1, r2, r3, r4⟩ := ih
      (if best.length < (child d memo).1.length then (child d memo).1 else best)
      (child d memo).2 hds' hq1 hb'
    refine ⟨?_, ?_, ?_, ?_⟩
    · simpa [getLongestChainDeps] using r1
    · intro k c h
      simpa [getLongestChainDeps] using r2 k c (hq2 k c h)
    · intro x hx h
      simpa [getLongestChainDeps] using r3 x hx (hq3 x hx h)
    · simpa [getLongestChainDeps] using r4

theorem mlookup_cons_ne_none (k' : String) (c : Chain) (m : Memo) (x : String)
    (h : mlookup m x ≠ none) : mlookup ((k', c) :: m) x ≠ none := by
  rw [mlookup_cons]
  split <;> simp [h]

/-- Master invariant of `getLongestChain`: one recursive call preserves
the memo invariant, never records a node of the active chain, and
returns (when non-nil) a simple path headed by the visited node. -/
theorem getLongestChainGo_spec (g : Graph) :
    ∀ fuel cur chain memo, GoodMemo g memo →
      (∀ x ∈ chain, adj g x ≠ []) →
      CallSpec g (fun x => x ∈ chain) cur memo
        (getLongestChainGo g fuel cur chain memo) := by
  intro fuel
  induction fuel with
  | zero =>
    intro cur chain memo hm _
    exact ⟨hm, fun k c h => h, fun x _ h => h, fun h => absurd rfl h⟩
  | succ fuel ih =>
    intro cur chain memo hm hchain
    simp only [getLongestChainGo]
    cases hml : mlookup memo cur with
    | some c =>
      refine ⟨hm, fun k c h => h, fun x _ h => h, fun _ => ?_⟩
      obtain ⟨h1, h2, h3, h4⟩ := hm cur c hml
      exact ⟨h1, h2, h3, h4⟩
    | none =>
      by_cases hdeps : adj g cur = []
      · rw [if_pos hdeps]
        have hxcur : cur ∉ chain := fun hx => hchain cur hx hdeps
        refine ⟨?_, ?_, ?_, ?_⟩
        · intro k c h
          rw [mlookup_cons] at h
          split at h
          · rename_i hk
            cases h
            subst hk
            refine ⟨rfl, by simp, trivial, ?_⟩
            intro x hx
            simp at hx
            subst hx
            simp [mlookup_cons]
          · obtain ⟨h1, h2, h3, h4⟩ := hm k c h
            exact ⟨h1, h2, h3, fun x hx => mlookup_cons_ne_none _ _ _ _ (h4 x hx)⟩
        · intro k c h
          rw [mlookup_cons]
          split
          · rename_i hk; subst hk; rw [hml] at h; cases h
          · exact h
        · intro x hx h
          rw [mlookup_cons]
          split
          · rename_i hk; subst hk; exact absurd hx hxcur
          · exact h
        · intro _
          refine ⟨rfl, by simp, trivial, ?_⟩
          intro x hx
          simp at hx
          subst hx
          simp [mlookup_cons]
      · rw [if_neg hdeps]
        by_cases hcont : contains chain cur = true
        · rw [if_pos hcont]
          exact ⟨hm, fun k c h => h, fun x _ h => h, fun h => absurd rfl h⟩
        · rw [if_neg hcont]
          have hxcur : cur ∉ chain := fun hx =>
            hcont ((contains_iff_mem chain cur).mpr hx)
          have hchain' : ∀ x ∈ chain ++ [cur], adj g x ≠ [] := by
            intro x hx
            rcases List.mem_append.mp hx with hx | hx
            · exact hchain x hx
            · simp at hx; subst hx; exact hdeps
          have hchild : ∀ d m, GoodMemo g m →
              CallSpec g (fun x => x ∈ chain ++ [cur]) d m
                (getLongestChainGo g fuel d (chain ++ [cur]) m) :=
            fun d m hgm => ih d (chain ++ [cur]) m hgm hchain'
          obtain ⟨L1, L2, L3, L4⟩ :=
            getLongestChainDeps_spec g (fun x => x ∈ chain ++ [cur])
              (fun dep m => getLongestChainGo g fuel dep (chain ++ [cur]) m)
              (adj g cur) hchild (adj g cur) [] memo (fun d h => h) hm (Or.inl rfl)
          set p := getLongestChainDeps
            (fun dep m => getLongestChainGo g fuel dep (chain ++ [cur]) m)
            (adj g cur) [] memo with hp
          have hcurnone : mlookup p.2 cur = none :=
            L3 cur (by simp) hml
          have hshape : (cur :: p.1).head? = some cur ∧ (cur :: p.1).Nodup ∧
              pathLinked g (cur :: p.1) ∧
              ∀ x ∈ cur :: p.1, mlookup ((cur, cur :: p.1) :: p.2) x ≠ none := by
            rcases L4 with hnil | ⟨⟨d, hd, hhead⟩, hnd, hlink, hrec⟩
            · rw [hnil]
              refine ⟨rfl, by simp, trivial, ?_⟩
              intro x hx
              simp at hx
              subst hx
              simp [mlookup_cons]
            · have hcurnotp : cur ∉ p.1 := by
                intro hx
                exact hrec cur hx hcurnone
              refine ⟨rfl, by simp [hcurnotp, hnd], ?_, ?_⟩
              · rcases hp1 : p.1 with _ | ⟨b, rest⟩
                · trivial
                · rw [hp1] at hhead
                  cases hhead
                  rw [hp1] at hlink
                  exact ⟨hd, hlink⟩
              · intro x hx
                rcases List.mem_cons.mp hx with hx | hx
                · subst hx; simp [mlookup_cons]
                · exact mlookup_cons_ne_none _ _ _ _ (hrec x hx)
          refine ⟨?_, ?_, ?_, fun _ => hshape⟩
          · intro k c h
            rw [mlookup_cons] at h
            split at h
            · rename_i hk
              cases h
              subst hk
              exact ⟨hshape.1, hshape.2.1, hshape.2.2.1, hshape.2.2.2⟩
            · obtain ⟨h1, h2, h3, h4⟩ := L1 k c h
              exact ⟨h1, h2, h3, fun x hx => mlookup_cons_ne_none _ _ _ _ (h4 x hx)⟩
          · intro k c h
            rw [mlookup_cons]
            split
            · rename_i hk; subst hk
              rw [L2 cur c h] at hcurnone
              cases hcurnone
            · exact L2 k c h
          · intro x hx h
            rw [mlookup_cons]
            split
            · rename_i hk; subst hk; exact absurd hx hxcur
            · exact L3 x (by simp [hx]) h

theorem getLongestChainGo_top_ne_nil (g : Graph) (fuel : Nat) (start : String) :
    (getLongestChainGo g (fuel + 1) start [] []).1 ≠ [] := by
  simp only [getLongestChainGo, mlookup]
  by_cases h : adj g start = []
  · rw [if_pos h]; simp
  · rw [if_neg h]; simp [contains]

/-- C7: for every graph (cyclic ones included) and every start node, the
chain returned by `getLongestChain` (fresh memo map, as called by the
stats command) contains no repeated node, even though memoized results
computed under one traversal path are reused from another path. -/
theorem getLongestChain_nodup (g : Graph) (start : String) :
    (getLongestChain g start).Nodup := by
  obtain ⟨_, _, _, h4⟩ :=
    getLongestChainGo_spec g (g.length + 2) start [] [] (goodMemo_nil g) (by simp)
  exact (h4 (getLongestChainGo_top_ne_nil g (g.length + 1) start)).2.1

/-- C1 (amended): the chain returned by `getLongestChain` is itself a
simple, cycle-free path of the graph starting at the start node — hence
its length is at most that of the longest simple path — but it is not in
general a longest one (see `getLongestChain_memo_counterexample`). -/
theorem getLongestChain_simple_path (g : Graph) (start : String) :
    isSimplePathFrom g start (getLongestChain g start) := by
  obtain ⟨_, _, _, h4⟩ :=
    getLongestChainGo_spec g (g.length + 2) start [] [] (goodMemo_nil g) (by simp)
  obtain ⟨h1, h2, h3, _⟩ := h4 (getLongestChainGo_top_ne_nil g (g.length + 1) start)
  exact ⟨h1, h2, h3⟩

/-- The graph A→{B,C}, B→D, C→D, D→B.  Exploring B first memoizes the
chain [D] for D while B is on the active path; the memo is then reused
under C, hiding the longer continuation D→B. -/
def cexMemoG : Graph := [("A", ["B", "C"]), ("B", ["D"]), ("C", ["D"]), ("D", ["B"])]

/-- C1 (counterexample): on `cexMemoG` the engine returns the chain
A,B,D of length 3, yet A,C,D,B is a simple path of length 4 starting at
A — the returned chain is not a longest simple path. -/
theorem getLongestChain_memo_counterexample :
    getLongestChain cexMemoG "A" = ["A", "B", "D"] ∧
    isSimplePathFrom cexMemoG "A" ["A", "C", "D", "B"] ∧
    (getLongestChain cexMemoG "A").length <
      (["A", "C", "D", "B"] : List String).length :=
  ⟨by decide, by decide, by decide⟩

/-! ## Path Finder (the `why` command, `findAllPaths`)

The Go function appends found paths to `*out` and uses a per-branch
`visited` map whose mark is removed by `defer` on exit, so each call
leaves `visited` as it found it; we therefore pass `visited` by value.
`maxPaths` is a Go `int`; the commands only ever pass non-negative
values, and negative values behave like `0` (unbounded), so it is
modelled as `Nat`. -/

/-- The neighbour loop of `findAllPaths` with its early exit
(`if maxPaths > 0 && len(*out) >= maxPaths { return }` after each
child); `child` is the recursive call at one less fuel. -/
def findAllPathsLoop (child : String → List (List String) → List (List String))
    (maxPaths : Nat) : List String → List (List String) → List (List String)
  | [], out => out
  | next :: rest, out =>
    let out' := child next out
    if 0 < maxPaths ∧ maxPaths ≤ out'.length then out'
    else findAllPathsLoop child maxPaths rest out'

/-- `findAllPaths` from the why command: DFS from `start`, stopping a
branch at its first arrival at `target` and aborting altogether once
`out` holds `maxPaths` paths. -/
def findAllPaths (g : Graph) (target : String) (maxPaths : Nat) :
    Nat → String → List String → (String → Bool) →
      List (List String) → List (List String)
  | 0, _, _, _, out => out
  | fuel + 1, start, currentPath, visited, out =>
    if 0 < maxPaths ∧ maxPaths ≤ out.length then out
    else
      let currentPath' := currentPath ++ [start]
      if start = target then out ++ [currentPath']
      else if visited start then out
      else
        findAllPathsLoop
          (fun next o => findAllPaths g target maxPaths fuel next currentPath'
            (fun v => if v = start then true else visited v) o)
          maxPaths (adj g start) out

theorem findAllPathsLoop_extend
    (child : String → List (List String) → List (List String)) (n : Nat)
    (hchild : ∀ nx o, ∃ new, child nx o = o ++ new) :
    ∀ ds out, ∃ new, findAllPathsLoop child n ds out = out ++ new := by
  intro ds
  induction ds with
  | nil => intro out; exact ⟨[], by simp [findAllPathsLoop]⟩
  | cons nx rest ih =>
    intro out
    obtain ⟨new1, h1⟩ := hchild nx out
    simp only [findAllPathsLoop]
    split
    · exact ⟨new1, h1⟩
    · obtain ⟨new2, h2⟩ := ih (child nx out)
      exact ⟨new1 ++ new2, by rw [h2, h1, List.append_assoc]⟩

theorem findAllPaths_extend (g : Graph) (target : String) (n : Nat) :
    ∀ fuel start cp vis out, ∃ new,
      findAllPaths g target n fuel start cp vis out = out ++ new := by
  intro fuel
  induction fuel with
  | zero => intro start cp vis out; exact ⟨[], by simp [findAllPaths]⟩
  | succ fuel ih =>
    intro start cp vis out
    simp only [findAllPaths]
    split
    · exact ⟨[], by simp⟩
    · split
      · exact ⟨[cp ++ [start]], rfl⟩
      · split
        · exact ⟨[], by simp⟩
        · exact findAllPathsLoop_extend _ n (fun nx o => ih nx _ _ o) _ out

theorem findAllPathsLoop_take (n : Nat)
    (childC childU : String → List (List String) → List (List String))
    (hchild : ∀ nx u, childC nx (u.take n) = (childU nx u).take n)
    (hextU : ∀ nx o, ∃ new, childU nx o = o ++ new) :
    ∀ ds u, findAllPathsLoop childC n ds (u.take n) =
      (findAllPathsLoop childU 0 ds u).take n := by
  intro ds
  induction ds with
  | nil => intro u; simp [findAllPathsLoop]
  | cons nx rest ih =>
    intro u
    simp only [findAllPathsLoop]
    rw [hchild nx u]
    have h0 : ¬ (0 < 0 ∧ 0 ≤ (childU nx u).length) := by simp
    rw [if_neg h0]
    split
    · rename_i hcap
      obtain ⟨new, hnew⟩ :=
        findAllPathsLoop_extend childU 0 hextU rest (childU nx u)
      have hlen : n ≤ (childU nx u).length := by
        have h2 := hcap.2
        rw [List.length_take] at h2
        exact le_trans h2 (min_le_right _ _)
      rw [hnew, List.take_append_of_le_length hlen]
    · exact ih (childU nx u)

/-- Running with cap `n` from a truncated accumulator agrees with
truncating the unbounded (`maxPaths = 0`) run: the two runs coincide
until the cap is hit, after which the capped run appends nothing. -/
theorem findAllPaths_take (g : Graph) (target : String) (n : Nat) (hn : 0 < n) :
    ∀ fuel start cp vis u,
      findAllPaths g target n fuel start cp vis (u.take n) =
        (findAllPaths g target 0 fuel start cp vis u).take n := by
  intro fuel
  induction fuel with
  | zero => intro start cp vis u; simp [findAllPaths]
  | succ fuel ih =>
    intro start cp vis u
    simp only [findAllPaths]
    have h0 : ¬ (0 < 0 ∧ 0 ≤ u.length) := by simp
    rw [if_neg h0]
    by_cases hcap : n ≤ u.length
    · have hcap' : 0 < n ∧ n ≤ (u.take n).length := by
        refine ⟨hn, ?_⟩
        rw [List.length_take]
        exact le_min le_rfl hcap
      rw [if_pos hcap']
      split
      · rw [List.take_append_of_le_length hcap]
      · split
        · rfl
        · obtain ⟨new, hnew⟩ := findAllPathsLoop_extend _ 0
            (fun nx o => findAllPaths_extend g target 0 fuel nx _ _ o) (adj g start) u
          rw [hnew, List.take_append_of_le_length hcap]
    · have hlt : u.length < n := Nat.lt_of_not_le hcap
      have htu : u.take n = u := List.take_of_length_le (Nat.le_of_lt hlt)
      have hcap' : ¬ (0 < n ∧ n ≤ (u.take n).length) := by
        rw [htu]
        intro h
        exact hcap h.2
      rw [if_neg hcap']
      split
      · have hfits : (u ++ [cp ++ [start]]).length ≤ n := by
          simp
          omega
        rw [htu, List.take_of_length_le hfits]
      · split
        · rfl
        · exact findAllPathsLoop_take n _ _
            (fun nx o => ih nx _ _ o)
            (fun nx o => findAllPaths_extend g target 0 fuel nx _ _ o)
            (adj g start) u

theorem pathLinked_snoc (g : Graph) :
    ∀ l a b, pathLinked g l → l.getLast? = some a → b ∈ adj g a →
      pathLinked g (l ++ [b])
  | [], a, b => by simp
  | [x], a, b => by
    intro _ hlast hb
    simp at hlast
    subst hlast
    exact ⟨hb, trivial⟩
  | x :: y :: rest, a, b => by
    intro hlink hlast hb
    obtain ⟨hxy, hlink'⟩ := hlink
    have hlast' : (y :: rest).getLast? = some a := by
      rw [List.getLast?_cons_cons] at hlast
      exact hlast
    exact ⟨hxy, pathLinked_snoc g (y :: rest) a b hlink' hlast' hb⟩

theorem nodup_snoc (l : List String) (a : String) (h : l.Nodup) (ha : a ∉ l) :
    (l ++ [a]).Nodup := by
  rw [List.nodup_append]
  refine ⟨h, List.nodup_singleton a, ?_⟩
  intro x hx hxa
  simp at hxa
  subst hxa
  exact ha hx

theorem findAllPathsLoop_mem (Q : List String → Prop)
    (child : String → List (List String) → List (List String)) (n : Nat)
    (ds : List String)
    (hchild : ∀ nx ∈ ds, ∀ o p, p ∈ child nx o → p ∈ o ∨ Q p) :
    ∀ out p, p ∈ findAllPathsLoop child n ds out → p ∈ out ∨ Q p := by
  induction ds with
  | nil => intro out p hp; exact Or.inl hp
  | cons nx rest ih =>
    intro out p hp
    simp only [findAllPathsLoop] at hp
    split at hp
    · exact hchild nx (List.mem_cons_self _ _) out p hp
    · rcases ih (fun x hx => hchild x (List.mem_cons_of_mem _ hx)) (child nx out) p hp with
        h | h
      · exact hchild nx (List.mem_cons_self _ _) out p h
      · exact Or.inr h

/-- Every path appended by `findAllPaths` extends the active path by the
start node, is simple and edge-linked, and ends at its first arrival at
the target. -/
theorem findAllPaths_shape (g : Graph) (target : String) (n : Nat) :
    ∀ fuel start cp vis out,
      (∀ x, vis x = true ↔ x ∈ cp) → cp.Nodup → target ∉ cp →
      pathLinked g (cp ++ [start]) →
      ∀ p ∈ findAllPaths g target n fuel start cp vis out,
        p ∈ out ∨ ((∃ ext, p = cp ++ [start] ++ ext) ∧ p.Nodup ∧
          pathLinked g p ∧ p.getLast? = some target ∧ target ∉ p.dropLast) := by
  intro fuel
  induction fuel with
  | zero => intro start cp vis out _ _ _ _ p hp; exact Or.inl hp
  | succ fuel ih =>
    intro start cp vis out hvis hnd htgt hlink p hp
    simp only [findAllPaths] at hp
    split at hp
    · exact Or.inl hp
    · split at hp
      · rename_i htgteq
        subst htgteq
        rcases List.mem_append.mp hp with h | h
        · exact Or.inl h
        · simp at h
          subst h
          refine Or.inr ⟨⟨[], by simp⟩, nodup_snoc cp start hnd htgt, hlink, ?_, ?_⟩
          · rw [List.getLast?_concat]
          · rw [List.dropLast_concat]
            exact htgt
      · split at hp
        · exact Or.inl hp
        · rename_i hne hnvis
          have hstart : start ∉ cp := fun hx => by
            rw [← hvis start] at hx
            rw [hx] at hnvis
            exact hnvis rfl
          have hvis' : ∀ x, (if x = start then true else vis x) = true ↔
              x ∈ cp ++ [start] := by
            intro x
            by_cases hx : x = start
            · subst hx; simp
            · simp [hx, hvis x]
          have hnd' : (cp ++ [start]).Nodup := nodup_snoc cp start hnd hstart
          have htgt' : target ∉ cp ++ [start] := by
            intro hx
            rcases List.mem_append.mp hx with h | h
            · exact htgt h
            · simp at h; exact hne h.symm
          refine findAllPathsLoop_mem
            (fun q => (∃ ext, q = cp ++ [start] ++ ext) ∧ q.Nodup ∧
              pathLinked g q ∧ q.getLast? = some target ∧ target ∉ q.dropLast)
            _ n (adj g start) ?_ out p hp
          intro nx hnx o q hq
          have hlink' : pathLinked g ((cp ++ [start]) ++ [nx]) :=
            pathLinked_snoc g (cp ++ [start]) start nx hlink
              (by rw [List.getLast?_concat]) hnx
          rcases ih nx (cp ++ [start]) _ o hvis' hnd' htgt' hlink' q hq with h | h
          · exact Or.inl h
          · obtain ⟨⟨ext, hext⟩, h2, h3, h4, h5⟩ := h
            refine Or.inr ⟨⟨nx :: ext, ?_⟩, h2, h3, h4, h5⟩
            rw [hext]
            simp

theorem findAllPathsLoop_length
    (child : String → List (List String) → List (List String)) (n : Nat)
    (hchild : ∀ nx o, (child nx o).length ≤ max o.length n) :
    ∀ ds out, (findAllPathsLoop child n ds out).length ≤ max out.length n := by
  intro ds
  induction ds with
  | nil => intro out; simp [findAllPathsLoop]
  | cons nx rest ih =>
    intro out
    simp only [findAllPathsLoop]
    split
    · exact hchild nx out
    · have h1 := hchild nx out
      have h2 := ih (child nx out)
      omega

/-- With a positive cap, `findAllPaths` never grows `out` beyond the cap
(and never shrinks it below its starting length). -/
theorem findAllPaths_length (g : Graph) (target : String) (n : Nat)
    (hn : 0 < n) :
    ∀ fuel start cp vis out,
      (findAllPaths g target n fuel start cp vis out).length ≤
        max out.length n := by
  intro fuel
  induction fuel with
  | zero => intro start cp vis out; simp [findAllPaths]
  | succ fuel ih =>
    intro start cp vis out
    simp only [findAllPaths]
    split
    · exact Nat.le_max_left _ _
    · rename_i hcap
      split
      · simp only [List.length_append, List.length_cons, List.length_nil]
        omega
      · split
        · exact Nat.le_max_left _ _
        · exact findAllPathsLoop_length _ n (fun nx o => ih nx _ _ o) (adj g start) out

/-- C6: `findAllPaths` with cap `n > 0` appends at most `n` paths in
total; every appended path is a simple edge-linked path from `start`
ending at its first arrival at `target`; and the capped run is exactly
the first `n` results of the unbounded (`maxPaths = 0`) run, so when the
unbounded search finds at least `n` paths exactly `n` are returned. -/
theorem findAllPaths_cap_spec (g : Graph) (target start : String)
    (n fuel : Nat) (hn : 0 < n) :
    (∀ cp vis out,
      (findAllPaths g target n fuel start cp vis out).length ≤
        max out.length n) ∧
    findAllPaths g target n fuel start [] (fun _ => false) [] =
      (findAllPaths g target 0 fuel start [] (fun _ => false) []).take n ∧
    (findAllPaths g target n fuel start [] (fun _ => false) []).length ≤ n ∧
    (n ≤ (findAllPaths g target 0 fuel start [] (fun _ => false) []).length →
      (findAllPaths g target n fuel start [] (fun _ => false) []).length = n) ∧
    (∀ p ∈ findAllPaths g target n fuel start [] (fun _ => false) [],
      p.head? = some start ∧ p.Nodup ∧ pathLinked g p ∧
        p.getLast? = some target ∧ target ∉ p.dropLast) := by
  have htake : findAllPaths g target n fuel start [] (fun _ => false) [] =
      (findAllPaths g target 0 fuel start [] (fun _ => false) []).take n := by
    have := findAllPaths_take g target n hn fuel start [] (fun _ => false) []
    simpa using this
  refine ⟨fun cp vis out => findAllPaths_length g target n hn fuel start cp vis out,
    htake, ?_, ?_, ?_⟩
  · rw [htake, List.length_take]
    exact min_le_left _ _
  · intro hlen
    rw [htake, List.length_take]
    exact min_eq_left hlen
  · intro p hp
    rcases findAllPaths_shape g target n fuel start [] (fun _ => false) []
      (by simp) List.nodup_nil (List.not_mem_nil target) trivial p hp with h | h
    · exact absurd h (List.not_mem_nil p)
    · obtain ⟨⟨ext, hext⟩, h2, h3, h4, h5⟩ := h
      refine ⟨?_, h2, h3, h4, h5⟩
      rw [hext]
      rfl

/-- A two-edge chain used to witness the `findAllPaths` contract. -/
def pwG : Graph := [("A", ["B"]), ("B", ["C"])]

theorem findAllPaths_cap_spec_witness :
    (0 : Nat) < 1 ∧
    findAllPaths pwG "C" 1 5 "A" [] (fun _ => false) [] =
      (findAllPaths pwG "C" 0 5 "A" [] (fun _ => false) []).take 1 ∧
    findAllPaths pwG "C" 1 5 "A" [] (fun _ => false) [] = [["A", "B", "C"]] :=
  ⟨by decide, (findAllPaths_cap_spec pwG "C" "A" 1 5 (by decide)).2.1, by decide⟩

/-! ## `getAllDeps` (utils, part_010) and the Diff Engine lists (part_013) -/

/-- One of the two accumulation loops of `getAllDeps`: append each
element not already present. -/
def dedupAppend (allDeps : List String) : List String → List String
  | [] => allDeps
  | dep :: rest =>
    if contains allDeps dep then dedupAppend allDeps rest
    else dedupAppend (allDeps ++ [dep]) rest

/-- `getAllDeps` from part_010: direct dependencies first, then
transitive ones, each appended only when not yet present. -/
def getAllDeps (directDeps transDeps : List String) : List String :=
  dedupAppend (dedupAppend [] directDeps) transDeps

theorem dedupAppend_nodup : ∀ (ds acc : List String), acc.Nodup →
    (dedupAppend acc ds).Nodup
  | [], acc => fun h => h
  | dep :: rest, acc => by
    intro h
    simp only [dedupAppend]
    split
    · exact dedupAppend_nodup rest acc h
    · rename_i hc
      refine dedupAppend_nodup rest (acc ++ [dep]) (nodup_snoc acc dep h ?_)
      intro hmem
      exact hc ((contains_iff_mem acc dep).mpr hmem)

theorem dedupAppend_mem : ∀ (ds acc : List String) (x : String),
    x ∈ dedupAppend acc ds ↔ x ∈ acc ∨ x ∈ ds
  | [], acc, x => by simp [dedupAppend]
  | dep :: rest, acc, x => by
    simp only [dedupAppend]
    split
    · rename_i hc
      rw [dedupAppend_mem rest acc x]
      constructor
      · rintro (h | h)
        · exact Or.inl h
        · exact Or.inr (List.mem_cons_of_mem _ h)
      · rintro (h | h)
        · exact Or.inl h
        · rcases List.mem_cons.mp h with h | h
          · subst h; exact Or.inl ((contains_iff_mem acc x).mp hc)
          · exact Or.inr h
    · rw [dedupAppend_mem rest (acc ++ [dep]) x]
      simp only [List.mem_append, List.mem_singleton, List.mem_cons]
      tauto

theorem dedupAppend_extend : ∀ (ds acc : List String),
    ∃ rest, dedupAppend acc ds = acc ++ rest ∧ ∀ x ∈ rest, x ∈ ds ∧ x ∉ acc
  | [], acc => ⟨[], by simp [dedupAppend]⟩
  | dep :: rest, acc => by
    simp only [dedupAppend]
    split
    · obtain ⟨r, hr, hmem⟩ := dedupAppend_extend rest acc
      exact ⟨r, hr, fun x hx => ⟨List.mem_cons_of_mem _ (hmem x hx).1, (hmem x hx).2⟩⟩
    · rename_i hc
      obtain ⟨r, hr, hmem⟩ := dedupAppend_extend rest (acc ++ [dep])
      refine ⟨dep :: r, by rw [hr]; simp, ?_⟩
      intro x hx
      rcases List.mem_cons.mp hx with h | h
      · subst h
        exact ⟨List.mem_cons_self _ _,
          fun hmem' => hc ((contains_iff_mem acc x).mpr hmem')⟩
      · obtain ⟨h1, h2⟩ := hmem x h
        refine ⟨List.mem_cons_of_mem _ h1, fun hx' => h2 ?_⟩
        simp [hx']

/-- C10: `getAllDeps` returns a duplicate-free list containing exactly
the union of the direct and the transitive dependency lists (so the
total-dependency count counts each module once); the direct
dependencies, deduplicated in order, form a prefix, and everything after
that prefix is a transitive-only module. -/
theorem getAllDeps_spec (d t : List String) :
    (getAllDeps d t).Nodup ∧
    (∀ x, x ∈ getAllDeps d t ↔ x ∈ d ∨ x ∈ t) ∧
    ∃ rest, getAllDeps d t = getAllDeps d [] ++ rest ∧
      ∀ x ∈ rest, x ∈ t ∧ x ∉ d := by
  refine ⟨dedupAppend_nodup t _ (dedupAppend_nodup d [] List.nodup_nil), ?_, ?_⟩
  · intro x
    rw [getAllDeps, dedupAppend_mem, dedupAppend_mem]
    simp
  · obtain ⟨rest, hr, hmem⟩ := dedupAppend_extend t (dedupAppend [] d)
    refine ⟨rest, by rw [getAllDeps, hr]; rfl, ?_⟩
    intro x hx
    obtain ⟨h1, h2⟩ := hmem x hx
    exact ⟨h1, fun hd => h2 ((dedupAppend_mem d [] x).mpr (Or.inr hd))⟩

/-- Go's `<` on strings compares bytes; on valid UTF-8 this coincides
with lexicographic comparison of the code-point sequences, modelled
structurally here. -/
def charListLt : List Char → List Char → Bool
  | [], [] => false
  | [], _ :: _ => true
  | _ :: _, [] => false
  | a :: as, b :: bs =>
    if a < b then true else if b < a then false else charListLt as bs

/-- Go `a < b` on strings. -/
def strLt (a b : String) : Bool := charListLt a.data b.data

/-- Go `a <= b` on strings (`!(b < a)`). -/
def strLe (a b : String) : Bool := !(strLt b a)

theorem charListLt_irrefl : ∀ l, charListLt l l = false
  | [] => rfl
  | a :: as => by
    simp only [charListLt, lt_irrefl a, if_false]
    exact charListLt_irrefl as

theorem charListLt_trans : ∀ a b c, charListLt a b = true →
    charListLt b c = true → charListLt a c = true
  | [], [], _ => by intro h _; cases h
  | [], _ :: _, [] => by intro _ h; cases h
  | [], _ :: _, _ :: _ => by intro _ _; rfl
  | _ :: _, [], _ => by intro h _; cases h
  | _ :: _, _ :: _, [] => by intro _ h; cases h
  | a :: as, b :: bs, c :: cs => by
    intro h1 h2
    simp only [charListLt] at h1 h2 ⊢
    rcases lt_trichotomy a b with hab | hab | hab
    · rcases lt_trichotomy b c with hbc | hbc | hbc
      · rw [if_pos (lt_trans hab hbc)]
      · subst hbc; rw [if_pos hab]
      · -- b > c: h2 must have b < c or b = c; contradiction
        rw [if_neg (lt_asymm hbc), if_pos hbc] at h2
        cases h2
    · subst hab
      rcases lt_trichotomy a c with hac | hac | hac
      · rw [if_pos hac]
      · subst hac
        rw [if_neg (lt_irrefl a), if_neg (lt_irrefl a)] at h1 h2 ⊢
        exact charListLt_trans as bs cs h1 h2
      · rw [if_neg (lt_asymm hac), if_pos hac] at h2
        cases h2
    · rw [if_neg (lt_asymm hab), if_pos hab] at h1
      cases h1

theorem charListLt_connex : ∀ a b, charListLt a b = false →
    charListLt b a = false → a = b
  | [], [] => by intro _ _; rfl
  | [], _ :: _ => by intro h _; cases h
  | _ :: _, [] => by intro _ h; cases h
  | a :: as, b :: bs => by
    intro h1 h2
    simp only [charListLt] at h1 h2
    rcases lt_trichotomy a b with hab | hab | hab
    · rw [if_pos hab] at h1; cases h1
    · subst hab
      rw [if_neg (lt_irrefl a), if_neg (lt_irrefl a)] at h1 h2
      rw [charListLt_connex as bs h1 h2]
    · rw [if_pos hab] at h2; cases h2

theorem charListLt_asymm (a b : List Char) (h : charListLt a b = true) :
    charListLt b a = false := by
  rcases hba : charListLt b a with _ | _
  · rfl
  · have := charListLt_trans a b a h hba
    rw [charListLt_irrefl a] at this
    cases this

theorem strLe_refl (a : String) : strLe a a = true := by
  simp [strLe, strLt, charListLt_irrefl]

theorem strLe_of_lt (a b : String) (h : strLt a b = true) : strLe a b = true := by
  simp [strLe, strLt] at h ⊢
  exact charListLt_asymm _ _ h

theorem charListLt_total (a b : List Char) :
    charListLt a b = true ∨ charListLt b a = true ∨ a = b := by
  rcases h1 : charListLt a b with _ | _
  · rcases h2 : charListLt b a with _ | _
    · exact Or.inr (Or.inr (charListLt_connex a b h1 h2))
    · exact Or.inr (Or.inl rfl)
  · exact Or.inl rfl

theorem strLe_trans (a b c : String) (h1 : strLe a b = true)
    (h2 : strLe b c = true) : strLe a c = true := by
  simp only [strLe, strLt, Bool.not_eq_true'] at h1 h2 ⊢
  rcases hca : charListLt c.data a.data with _ | _
  · rfl
  · rcases charListLt_total b.data c.data with h | h | h
    · have hba := charListLt_trans _ _ _ h hca
      rw [hba] at h1; cases h1
    · rw [h] at h2; cases h2
    · rw [h] at h1; rw [hca] at h1; cases h1

/-- Insertion step for the model of Go's `sort.Strings` (duplicates
kept; equal strings are indistinguishable, so any correct sort yields
this result). -/
def insertStr (s : String) : List String → List String
  | [] => [s]
  | t :: ts => if strLe s t then s :: t :: ts else t :: insertStr s ts

/-- Model of `sort.Strings`. -/
def sortStrings (l : List String) : List String := l.foldr insertStr []

/-- `DependencyOverview` from utils (part_010). -/
structure DependencyOverview where
  Graph : Graph
  DirectDepList : List String
  TransDepList : List String
  MainModules : List String
  deriving DecidableEq

/-- `getEdges` from the diff command: render every adjacency pair as
`"from -> to"` and sort. -/
def getEdges (g : Graph) : List String :=
  sortStrings (g.flatMap (fun p => p.2.map (fun t => p.1 ++ " -> " ++ t)))

/-- `diffSlices` from the diff command: items of `b` not in `a`,
sorted. -/
def diffSlices (a b : List String) : List String :=
  sortStrings (b.filter (fun item => !(contains a item)))

/-- The four added/removed lists computed by `runDiff` (part_013 lines
240-243) from two snapshots. -/
structure DiffLists where
  added : List String
  removed : List String
  edgesAdded : List String
  edgesRemoved : List String

/-- The node/edge diff part of `runDiff`: `Added`/`Removed` over
`getAllDeps`, `EdgesAdded`/`EdgesRemoved` over rendered edges. -/
def computeDiffLists (base head : DependencyOverview) : DiffLists :=
  let baseDeps := getAllDeps base.DirectDepList base.TransDepList
  let headDeps := getAllDeps head.DirectDepList head.TransDepList
  let baseEdges := getEdges base.Graph
  let headEdges := getEdges head.Graph
  ⟨diffSlices baseDeps headDeps, diffSlices headDeps baseDeps,
    diffSlices baseEdges headEdges, diffSlices headEdges baseEdges⟩

/-- C8: diffing is antisymmetric — swapping the base and head snapshots
swaps the Added and Removed lists, both for dependency names and for
rendered `"from -> to"` edges. -/
theorem computeDiffLists_antisymm (A B : DependencyOverview) :
    (computeDiffLists A B).added = (computeDiffLists B A).removed ∧
    (computeDiffLists A B).removed = (computeDiffLists B A).added ∧
    (computeDiffLists A B).edgesAdded = (computeDiffLists B A).edgesRemoved ∧
    (computeDiffLists A B).edgesRemoved = (computeDiffLists B A).edgesAdded :=
  ⟨rfl, rfl, rfl, rfl⟩

/-! ## Graph Builder (part_010, `generateGraph`)

Raw lines are parsed into a versioned adjacency map; effective versions
are seeded from the main modules' requirements and fixed by a FIFO
reachability traversal; finally only edges of each identifier's
effective version are collapsed into the output graph. -/

/-- A raw module: identifier plus version (empty when no `@version`). -/
abbrev Module := String × String

/-- Split a character list at every character satisfying `p`
(structural model of Go string splitting). -/
def splitByPred (p : Char → Bool) : List Char → List (List Char)
  | [] => [[]]
  | x :: rest =>
    let r := splitByPred p rest
    if p x then [] :: r
    else
      match r with
      | [] => [[x]]
      | h :: t => (x :: h) :: t

/-- Lines as Go's `bufio.Scanner` yields them: split on newline, with no
final empty line when the input ends in a newline.  (Carriage returns
are not stripped; the modelled inputs use plain `\n`.) -/
def scanLines (s : String) : List String :=
  let parts := splitByPred (fun c => c = '\n') s.data
  (if parts.getLast? = some [] then parts.dropLast else parts).map String.mk

/-- Go `strings.Fields`: split on whitespace, dropping empty fields. -/
def fields (s : String) : List String :=
  ((splitByPred (fun c => c.isWhitespace) s.data).filter (· ≠ [])).map String.mk

/-- Split at the first occurrence of `c`, when present
(Go `strings.SplitN(s, "@", 2)`). -/
def splitAtFirst (c : Char) : List Char → Option (List Char × List Char)
  | [] => none
  | x :: rest =>
    if x = c then some ([], rest)
    else (splitAtFirst c rest).map (fun p => (x :: p.1, p.2))

/-- `parseModule` from part_010. -/
def parseModule (s : String) : Module :=
  match splitAtFirst '@' s.data with
  | some (n, v) => (String.mk n, String.mk v)
  | none => (s, "")

/-- The raw versioned adjacency map, keyed by `(identifier, version)`. -/
abbrev VGraph := List (Module × List Module)

def vgGet (vg : VGraph) (k : Module) : List Module :=
  match vg with
  | [] => []
  | (k', v) :: rest => if k' = k then v else vgGet rest k

def vgAppend (vg : VGraph) (k : Module) (r : Module) : VGraph :=
  match vg with
  | [] => [(k, [r])]
  | (k', v) :: rest =>
    if k' = k then (k', v ++ [r]) :: rest else (k', v) :: vgAppend rest k r

/-- Accumulated state of `generateGraph`'s scanning loop. -/
structure ParseState where
  versionedGraph : VGraph
  lhss : List Module
  versionedMainModules : List Module
  mains : List String
  deriving DecidableEq

/-- One iteration of the scanning loop.  `none` models the Go
index-out-of-range panic on a line with too few fields (`words[0]`
for an empty line, `words[1]` for a one-field line; the go/toolchain
skip fires before `words[1]` is read). -/
def parseLine (mainModules : List String) (st : ParseState) (line : String) :
    Option ParseState :=
  match fields line with
  | [] => none
  | w0 :: restWords =>
    let lhs := parseModule w0
    if lhs.1 = "go" ∨ "toolchain".data.isPrefixOf lhs.1.data then some st
    else
      let st :=
        if st.versionedMainModules = [] ∨ lhs.1 ∈ mainModules then
          (if lhs ∈ st.versionedMainModules then st
            else { st with versionedMainModules := st.versionedMainModules ++ [lhs] })
        else st
      let st := if st.mains = [] then { st with mains := [lhs.1] } else st
      match restWords with
      | [] => none
      | w1 :: _ =>
        let rhs := parseModule w1
        let st :=
          if vgGet st.versionedGraph lhs = [] then
            { st with lhss := st.lhss ++ [lhs] }
          else st
        some { st with versionedGraph := vgAppend st.versionedGraph lhs rhs }

/-- The scanning loop of `generateGraph` (lines 157-195 of part_010). -/
def genParse (input : String) (mainModules : List String) : Option ParseState :=
  (scanLines input).foldlM (parseLine mainModules) ⟨[], [], [], mainModules⟩

/-- The `effectiveVersions` map (Go `map[string]string`; a missing key
reads as `""`). -/
abbrev EV := List (String × String)

def evGet (ev : EV) (k : String) : Option String :=
  match ev with
  | [] => none
  | (k', v) :: rest => if k' = k then some v else evGet rest k

def evSet (ev : EV) (k v : String) : EV :=
  match ev with
  | [] => [(k, v)]
  | (k', v') :: rest =>
    if k' = k then (k, v) :: rest else (k', v') :: evSet rest k v

/-- One update of the effective-version seeding loop (line 202-204 of
part_010): raise the recorded version when the requested one is
byte-wise-lexically larger (a missing entry reads as `""`). -/
def effStep (ev : EV) (m : Module) : EV :=
  if strLt ((evGet ev m.1).getD "") m.2 then evSet ev m.1 m.2 else ev

/-- Lines 199-206 of part_010: seed the effective versions with the
byte-wise-lexical maximum version each main module requests. -/
def effInit (vmm : List Module) (vg : VGraph) : EV :=
  vmm.foldl (fun ev mm => (vgGet vg mm).foldl effStep ev) []

/-- Lines 213-241 of part_010: FIFO reachability traversal.  A module
name's effective version is fixed at its first arrival: promoted to the
seeded version when that is lexically larger, otherwise overwritten with
the arriving version; later arrivals are ignored entirely. -/
def reachBFS (vg : VGraph) : Nat → List Module → List String → EV →
    (List String × EV)
  | 0, _, reach, ev => (reach, ev)
  | _ + 1, [], reach, ev => (reach, ev)
  | fuel + 1, v :: rest, reach, ev =>
    if v.1 ∈ reach then reachBFS vg fuel rest reach ev
    else
      let reach' := reach ++ [v.1]
      match evGet ev v.1 with
      | some e =>
        if strLt v.2 e then
          reachBFS vg fuel (rest ++ vgGet vg (v.1, e)) reach' ev
        else
          reachBFS vg fuel (rest ++ vgGet vg v) reach' (evSet ev v.1 v.2)
      | none =>
        reachBFS vg fuel (rest ++ vgGet vg v) reach' (evSet ev v.1 v.2)

/-- Fuel bound for the traversal: each processed queue entry either is
already reached or marks a new name, and every enqueue stems from one
newly reached key's adjacency list. -/
def bfsFuel (ps : ParseState) : Nat :=
  ps.versionedMainModules.length +
    (ps.versionedGraph.flatMap (fun p => p.2)).length + 2

def reachResult (ps : ParseState) : List String × EV :=
  reachBFS ps.versionedGraph (bfsFuel ps) ps.versionedMainModules []
    (effInit ps.versionedMainModules ps.versionedGraph)

/-- The effective-version map after the reachability traversal. -/
def finalEV (ps : ParseState) : EV := (reachResult ps).2

/-- Output accumulator of the final pass. -/
structure BuildAcc where
  graph : Graph
  direct : List String
  trans : List String

def graphAppend (g : Graph) (k v : String) : Graph :=
  match g with
  | [] => [(k, [v])]
  | (k', vs) :: rest =>
    if k' = k then (k', vs ++ [v]) :: rest else (k', vs) :: graphAppend rest k v

/-- Lines 254-275 of part_010: collapse the versioned edges of one
(effective) lhs into the output graph and classify each rhs. -/
def buildLhs (mains : List String) (vg : VGraph) (acc : BuildAcc)
    (lhs : Module) : BuildAcc :=
  (vgGet vg lhs).foldl (fun acc rhs =>
    let acc :=
      if contains (adj acc.graph lhs.1) rhs.1 then acc
      else { acc with graph := graphAppend acc.graph lhs.1 rhs.1 }
    if contains mains lhs.1 ∧ contains mains rhs.1 then acc
    else if contains mains lhs.1 then
      (if contains acc.direct rhs.1 then acc
        else { acc with direct := acc.direct ++ [rhs.1] })
    else
      (if contains acc.trans rhs.1 then acc
        else { acc with trans := acc.trans ++ [rhs.1] })) acc

/-- Lines 243-280 of part_010: keep only reachable lhs entries at their
effective version and build the final `DependencyOverview`. -/
def buildOverview (ps : ParseState) : DependencyOverview :=
  let reach := (reachResult ps).1
  let ev := finalEV ps
  let acc := ps.lhss.foldl (fun acc lhs =>
    if lhs.1 ∉ reach then acc
    else
      match evGet ev lhs.1 with
      | some e =>
        if e ≠ lhs.2 then acc else buildLhs ps.mains ps.versionedGraph acc lhs
      | none => buildLhs ps.mains ps.versionedGraph acc lhs)
    ⟨[], [], []⟩
  ⟨acc.graph, acc.direct, acc.trans, ps.mains⟩

/-- `generateGraph` from part_010; `none` models a parse-loop panic. -/
def generateGraph (input : String) (mainModules : List String) :
    Option DependencyOverview :=
  (genParse input mainModules).map buildOverview

/-- The effective-version map records `name` with a value at least
`ver` (byte-wise lexically). -/
def EVGE (ev : EV) (name ver : String) : Prop :=
  ∃ v, evGet ev name = some v ∧ strLe ver v = true

theorem evGet_evSet (ev : EV) (k w k' : String) :
    evGet (evSet ev k w) k' = if k = k' then some w else evGet ev k' := by
  induction ev with
  | nil => simp [evSet, evGet]
  | cons p rest ih =>
    obtain ⟨pk, pv⟩ := p
    by_cases hpk : pk = k <;> by_cases hk' : pk = k' <;>
      by_cases hkk : k = k' <;>
      simp_all [evSet, evGet]

theorem strLt_empty (v : String) (h : v ≠ "") : strLt "" v = true := by
  rcases v with ⟨data⟩
  cases data with
  | nil => exact absurd rfl h
  | cons c cs => rfl

theorem effStep_preserve (ev : EV) (m : Module) (name ver : String)
    (h : EVGE ev name ver) : EVGE (effStep ev m) name ver := by
  obtain ⟨v, hv, hle⟩ := h
  unfold effStep
  split
  · rename_i hlt
    by_cases hname : m.1 = name
    · subst hname
      rw [hv] at hlt
      simp only [Option.getD] at hlt
      exact ⟨m.2, by rw [evGet_evSet, if_pos rfl],
        strLe_trans _ _ _ hle (strLe_of_lt _ _ hlt)⟩
    · exact ⟨v, by rw [evGet_evSet, if_neg hname]; exact hv, hle⟩
  · exact ⟨v, hv, hle⟩

theorem effStep_establish (ev : EV) (name ver : String) (hver : ver ≠ "") :
    EVGE (effStep ev (name, ver)) name ver := by
  show EVGE (if strLt ((evGet ev name).getD "") ver = true
    then evSet ev name ver else ev) name ver
  rcases hv : evGet ev name with _ | v
  · simp only [hv, Option.getD]
    rw [if_pos (strLt_empty ver hver)]
    exact ⟨ver, by rw [evGet_evSet, if_pos rfl], strLe_refl ver⟩
  · simp only [hv, Option.getD]
    split
    · exact ⟨ver, by rw [evGet_evSet, if_pos rfl], strLe_refl ver⟩
    · rename_i hnlt
      refine ⟨v, hv, ?_⟩
      simp only [strLe, Bool.not_eq_true']
      rcases hb : strLt v ver with _ | _
      · rfl
      · exact absurd hb hnlt

theorem effFold_preserve (ms : List Module) (ev : EV) (name ver : String)
    (h : EVGE ev name ver) : EVGE (ms.foldl effStep ev) name ver := by
  induction ms generalizing ev with
  | nil => exact h
  | cons m rest ih => exact ih _ (effStep_preserve ev m name ver h)

theorem effFold_establish : ∀ (ms : List Module) (ev : EV) (name ver : String),
    (name, ver) ∈ ms → ver ≠ "" → EVGE (ms.foldl effStep ev) name ver
  | [], _, _, _ => by intro h _; cases h
  | m :: rest, ev, name, ver => by
    intro hmem hver
    simp only [List.foldl_cons]
    rcases List.mem_cons.mp hmem with h | h
    · rw [← h]
      exact effFold_preserve rest _ name ver (effStep_establish ev name ver hver)
    · exact effFold_establish rest (effStep ev m) name ver h hver

theorem effInitFold_preserve (vg : VGraph) :
    ∀ (vmm : List Module) (ev : EV) (name ver : String), EVGE ev name ver →
      EVGE (vmm.foldl (fun ev mm => (vgGet vg mm).foldl effStep ev) ev) name ver
  | [], _, _, _ => fun h => h
  | m :: rest, ev, name, ver => fun h => by
    simp only [List.foldl_cons]
    exact effInitFold_preserve vg rest _ name ver
      (effFold_preserve _ _ name ver h)

theorem effInitFold_establish (vg : VGraph) (mm : Module) (name ver : String)
    (hver : ver ≠ "") (hreq : (name, ver) ∈ vgGet vg mm) :
    ∀ (vmm : List Module) (ev : EV), mm ∈ vmm →
      EVGE (vmm.foldl (fun ev mm => (vgGet vg mm).foldl effStep ev) ev) name ver
  | [], _ => fun h => absurd h (List.not_mem_nil mm)
  | m :: rest, ev => fun hmm => by
    simp only [List.foldl_cons]
    rcases List.mem_cons.mp hmm with h | h
    · subst h
      exact effInitFold_preserve vg rest _ name ver
        (effFold_establish _ ev name ver hreq hver)
    · exact effInitFold_establish vg mm name ver hver hreq rest _ h

theorem effInit_establish (vmm : List Module) (vg : VGraph)
    (mm : Module) (name ver : String) (hmm : mm ∈ vmm)
    (hreq : (name, ver) ∈ vgGet vg mm) (hver : ver ≠ "") :
    EVGE (effInit vmm vg) name ver :=
  effInitFold_establish vg mm name ver hver hreq vmm [] hmm

/-- `reachBFS` never lowers a recorded effective version below an
already-established lexical lower bound. -/
theorem reachBFS_preserve (vg : VGraph) (name ver : String) :
    ∀ fuel queue reach ev, EVGE ev name ver →
      EVGE (reachBFS vg fuel queue reach ev).2 name ver := by
  intro fuel
  induction fuel with
  | zero => intro queue reach ev h; exact h
  | succ fuel ih =>
    intro queue reach ev h
    rcases queue with _ | ⟨v, rest⟩
    · exact h
    · simp only [reachBFS]
      split
      · exact ih rest reach ev h
      · obtain ⟨w, hw, hle⟩ := h
        rcases hv : evGet ev v.1 with _ | e
        · simp only [hv]
          have hne : v.1 ≠ name := fun heq => by rw [heq, hw] at hv; cases hv
          exact ih _ _ _ ⟨w, by rw [evGet_evSet, if_neg hne]; exact hw, hle⟩
        · simp only [hv]
          split
          · exact ih _ _ _ ⟨w, hw, hle⟩
          · rename_i hnlt
            by_cases hname : v.1 = name
            · rw [hname] at hv
              rw [hw] at hv
              cases hv
              rw [hname]
              refine ih _ _ _ ⟨v.2, by rw [evGet_evSet, if_pos rfl], ?_⟩
              refine strLe_trans _ _ _ hle ?_
              simp only [strLe, Bool.not_eq_true']
              rcases hb : strLt v.2 w with _ | _
              · rfl
              · exact absurd hb hnlt
            · exact ih _ _ _
                ⟨w, by rw [evGet_evSet, if_neg hname]; exact hw, hle⟩

/-- Modelled from the spec: the semantic-version-aware ordering
(`versionGreater`) demanded by §6 "Version comparison" — parse and
compare dot-separated numeric release components (with an optional "v"
prefix) numerically when both sides parse as such; fall back to
byte-wise lexical comparison when either side does not; equal versions
are not greater.  The function itself is not among the provided sources
(part_010's `generateGraph` never calls it); only its repository test
`Test_versionGreater` (part_003) is. -/
def parseNumeric (s : String) : Option (List Nat) :=
  let data := match s.data with
    | 'v' :: rest => rest
    | l => l
  let parts := splitByPred (fun c => c = '.') data
  if parts.all (fun p => !p.isEmpty && p.all (fun c => c.isDigit)) then
    some (parts.map (fun p =>
      p.foldl (fun n c => n * 10 + (c.toNat - '0'.toNat)) 0))
  else none

/-- Numeric component-wise comparison for parsed versions. -/
def natListGt : List Nat → List Nat → Bool
  | [], [] => false
  | [], _ :: _ => false
  | _ :: _, [] => true
  | a :: as, b :: bs =>
    if b < a then true else if a < b then false else natListGt as bs

/-- Modelled from the spec (see `parseNumeric`). -/
def versionGreater (a b : String) : Bool :=
  match parseNumeric a, parseNumeric b with
  | some xs, some ys => natListGt xs ys
  | _, _ => strLt b a

/-- Fidelity check: the spec-modelled comparison reproduces the expected
values of the repository's own `Test_versionGreater`. -/
theorem versionGreater_matches_repo_test :
    versionGreater "v1.10.0" "v1.9.0" = true ∧
    versionGreater "v1.9.0" "v1.10.0" = false ∧
    versionGreater "z-non-semver" "a-non-semver" = true ∧
    versionGreater "v1.2.3" "v1.2.3" = false :=
  ⟨by decide, by decide, by decide, by decide⟩

/-- Fidelity check: the embedding reproduces the expected direct and
transitive lists of the repository's own
`Test_generateGraph_overridden_versions`. -/
theorem generateGraph_matches_overridden_versions_test :
    (generateGraph
      "A B@v2\nA C@v2\nA D@v2\nB@v2 C@v1\nC@v1 D@v1\nD@v1 C@v1\nD@v1 E@v1\nC@v2 D@v2\nC@v2 F@v2\nD@v2 C@v2\nD@v2 G@v2"
      ["A", "D"]).map (fun o => (o.DirectDepList, o.TransDepList)) =
      some (["B", "C", "G"], ["C", "D", "F"]) := by decide

/-- Raw input whose effective version for B is decided lexically:
`v1.9.0` is byte-wise larger than the semver-larger `v1.10.0`. -/
def c4Input : String := "A B@v1.10.0\nA B@v1.9.0\nB@v1.10.0 C\nB@v1.9.0 D"

def c4PS : ParseState := (genParse c4Input []).getD ⟨[], [], [], []⟩

/-- Raw input where a reachable requester's larger request is ignored:
the traversal fixes C at its first-arrival version v1, although the
reachable module B (at its effective version v1) requests C@v2. -/
def c4bInput : String := "A B@v1\nA C@v1\nB@v1 C@v2\nC@v2 X@v1\nC@v1 Y@v1"

def c4bPS : ParseState := (genParse c4bInput []).getD ⟨[], [], [], []⟩

/-- C4 (counterexample): the recorded effective version is neither
semantic-version-aware (B resolves to v1.9.0, not the semver-maximum
v1.10.0, and B's collapsed edges are those of B@v1.9.0) nor the maximum
over all reachable requesters (C resolves to v1 although reachable
B@v1 requests C@v2; C's collapsed edges are those of C@v1). -/
theorem generateGraph_version_resolution_counterexample :
    (versionGreater "v1.10.0" "v1.9.0" = true ∧
      genParse c4Input [] = some c4PS ∧
      evGet (finalEV c4PS) "B" = some "v1.9.0" ∧
      (generateGraph c4Input []).map (fun o => adj o.Graph "B") = some ["D"]) ∧
    (genParse c4bInput [] = some c4bPS ∧
      ("B", "v1") ∈ vgGet c4bPS.versionedGraph ("A", "") ∧
      ("C", "v2") ∈ vgGet c4bPS.versionedGraph ("B", "v1") ∧
      versionGreater "v2" "v1" = true ∧ strLt "v1" "v2" = true ∧
      evGet (finalEV c4bPS) "C" = some "v1" ∧
      (generateGraph c4bInput []).map (fun o => adj o.Graph "C") = some ["Y"]) :=
  ⟨⟨by decide, by decide, by decide, by decide⟩,
    ⟨by decide, by decide, by decide, by decide, by decide, by decide, by decide⟩⟩

/-- C4 (amended): for every parsed input, the effective version the
Graph Builder records for an identifier is byte-wise-lexically at least
every version requested for it by a (versioned) main-module edge — the
seeding pass takes the lexical maximum over the main modules' requests
and the traversal never lowers a recorded version — but it is neither
semantic-version-aware nor a maximum over all reachable requesters (see
the counterexample). -/
theorem effectiveVersions_main_lower_bound (input : String)
    (mains : List String) (ps : ParseState) (mm : Module) (name ver : String)
    (hps : genParse input mains = some ps)
    (hmm : mm ∈ ps.versionedMainModules)
    (hreq : (name, ver) ∈ vgGet ps.versionedGraph mm)
    (hver : ver ≠ "") :
    ∃ v, evGet (finalEV ps) name = some v ∧ strLe ver v = true := by
  have h0 := effInit_establish ps.versionedMainModules ps.versionedGraph
    mm name ver hmm hreq hver
  exact reachBFS_preserve ps.versionedGraph name ver (bfsFuel ps)
    ps.versionedMainModules [] _ h0

theorem effectiveVersions_main_lower_bound_witness :
    (genParse c4Input [] = some c4PS ∧
      ("A", "") ∈ c4PS.versionedMainModules ∧
      ("B", "v1.10.0") ∈ vgGet c4PS.versionedGraph ("A", "") ∧
      ("v1.10.0" : String) ≠ "") ∧
    ∃ v, evGet (finalEV c4PS) "B" = some v ∧ strLe "v1.10.0" v = true :=
  ⟨⟨by decide, by decide, by decide, by decide⟩,
    effectiveVersions_main_lower_bound c4Input [] c4PS ("A", "") "B" "v1.10.0"
      (by decide) (by decide) (by decide) (by decide)⟩

/-- The exact raw input of the repository's own
`Test_generateGraph_skipsMalformedLines` (part_003 lines 689-702). -/
def c5Input : String :=
  "A B@v1.0.0\nmalformed\n\ngo@1.22.0 toolchain@go1.22.0\nA C@v1.0.0"

/-- C5 (the code at the failing input): `generateGraph` does not skip
malformed lines — on the input of the repository's own
`Test_generateGraph_skipsMalformedLines` the scanning loop indexes
`words[1]` out of range on the line "malformed" (and `words[0]` on the
blank line), a Go runtime panic modelled as `none` — whereas the same
input without the malformed lines parses, skips the go/toolchain line,
and classifies B and C as direct dependencies as the test expects. -/
theorem generateGraph_malformed_line_panics :
    generateGraph c5Input [] = none ∧
    (generateGraph "A B@v1.0.0\ngo@1.22.0 toolchain@go1.22.0\nA C@v1.0.0" []).map
        (fun o => (o.MainModules, o.DirectDepList)) =
      some (["A"], ["B", "C"]) :=
  ⟨by decide, by decide⟩

/-! ## Diff transitive reduction (part_013, `transitiveReduceEdges`) -/

/-- Character-level model of Go `strings.Split(s, " -> ")`: scan left to
right, breaking at each occurrence of the four-character separator. -/
def splitArrow : List Char → List (List Char)
  | [] => [[]]
  | ' ' :: '-' :: '>' :: ' ' :: rest => [] :: splitArrow rest
  | x :: rest =>
    match splitArrow rest with
    | [] => [[x]]
    | h :: t => (x :: h) :: t

/-- `strings.Split(s, " -> ")` on strings. -/
def splitArrowStr (s : String) : List String :=
  (splitArrow s.data).map String.mk

/-- BFS state of `reachableViaDiffPath`: the two reached-sets and the
work queue of `(node, hasDiff)` states. -/
structure RState where
  withDiff : List String
  noDiff : List String
  queue : List (String × Bool)

/-- The shared enqueue logic of `reachableViaDiffPath` (both for the
seeding loop and the main loop). -/
def rEnqueue (diffFlag : Bool) (n : String) (st : RState) : RState :=
  if diffFlag then
    if contains st.withDiff n then st
    else { st with withDiff := st.withDiff ++ [n], queue := st.queue ++ [(n, true)] }
  else
    if contains st.noDiff n then st
    else { st with noDiff := st.noDiff ++ [n], queue := st.queue ++ [(n, false)] }

/-- The main loop of `reachableViaDiffPath`. -/
def rvdpLoop (graph : Graph) (des : List String) (dst : String) :
    Nat → RState → Bool
  | 0, _ => false
  | fuel + 1, st =>
    match st.queue with
    | [] => false
    | (node, hasDiff) :: rest =>
      if node = dst ∧ hasDiff = true then true
      else
        rvdpLoop graph des dst fuel
          ((adj graph node).foldl
            (fun s n =>
              rEnqueue (hasDiff || contains des (node ++ " -> " ++ n)) n s)
            { st with queue := rest })

/-- Fuel bound for the BFS: each enqueue marks a previously unmarked
node in one of the two reached-sets, and all marked nodes are edge
targets (or seed neighbours), so the number of loop iterations is at
most twice the number of edges plus the seeds. -/
def rvdpFuel (graph : Graph) (src : String) : Nat :=
  2 * (graph.flatMap (fun p => p.2)).length + (adj graph src).length + 2

/-- `reachableViaDiffPath` from part_013: is `dst` reachable from `src`
by a path of length > 1 (the direct hop to `dst` is skipped when
seeding) that uses at least one diff edge? -/
def reachableViaDiffPath (src dst : String) (graph : Graph)
    (des : List String) : Bool :=
  rvdpLoop graph des dst (rvdpFuel graph src)
    ((adj graph src).foldl
      (fun s n =>
        if n = dst then s
        else rEnqueue (contains des (src ++ " -> " ++ n)) n s)
      ⟨[], [], []⟩)

/-- The projection of the full graph onto the diff-relevant nodes
(the `subGraph` built by `transitiveReduceEdges`). -/
def subGraphOf (fullGraph : Graph) (diffNodes : List String) : Graph :=
  diffNodes.map (fun node =>
    (node, (adj fullGraph node).filter (fun nb => contains diffNodes nb)))

/-- `transitiveReduceEdges` from part_013: keep only diff edges whose
target is not `reachableViaDiffPath`-reachable inside the projected
subgraph (edges that do not render as `"src -> dst"` are dropped). -/
def transitiveReduceEdges (diffEdges : List String) (fullGraph : Graph)
    (diffNodes : List String) : List String :=
  diffEdges.filter (fun edge =>
    match splitArrowStr edge with
    | [src, dst] =>
      !(reachableViaDiffPath src dst (subGraphOf fullGraph diffNodes) diffEdges)
    | _ => false)

/-- Some consecutive pair of `w` renders to a member of `des`. -/
def hasDiffEdge (des : List String) : List String → Prop
  | a :: b :: rest => (a ++ " -> " ++ b) ∈ des ∨ hasDiffEdge des (b :: rest)
  | _ => False

theorem hasDiffEdge_snoc (des : List String) :
    ∀ w x, hasDiffEdge des w → hasDiffEdge des (w ++ [x])
  | a :: b :: rest, x => by
    intro h
    rcases h with h | h
    · exact Or.inl h
    · exact Or.inr (hasDiffEdge_snoc des (b :: rest) x h)
  | [], _ => by intro h; cases h
  | [_], _ => by intro h; cases h

theorem hasDiffEdge_last (des : List String) :
    ∀ w a x, w.getLast? = some a → (a ++ " -> " ++ x) ∈ des →
      hasDiffEdge des (w ++ [x])
  | [], a, x => by intro h _; cases h
  | [b], a, x => by
    intro h hmem
    simp at h
    subst h
    exact Or.inl hmem
  | b :: c :: rest, a, x => by
    intro h hmem
    rw [List.getLast?_cons_cons] at h
    exact Or.inr (hasDiffEdge_last des (c :: rest) a x h hmem)

/-- The walk certified for a queue entry `(n, b)`: starts at `src`, ends
at `n`, is edge-linked in `g`, has at least one edge (at least two when
it reaches `dst`), and carries a diff edge when `b` is set. -/
def QWalk (g : Graph) (des : List String) (src dst : String)
    (q : String × Bool) : Prop :=
  ∃ w : List String, w.head? = some src ∧ w.getLast? = some q.1 ∧
    pathLinked g w ∧ 2 ≤ w.length ∧ (q.1 = dst → 3 ≤ w.length) ∧
    (q.2 = true → hasDiffEdge des w)

theorem rEnqueue_queue_sub (diffFlag : Bool) (n : String) (st : RState) :
    ∀ q ∈ (rEnqueue diffFlag n st).queue, q ∈ st.queue ∨ q = (n, diffFlag) := by
  intro q hq
  simp only [rEnqueue] at hq
  rcases diffFlag with _ | _ <;> simp at hq <;> split at hq <;>
    first
      | exact Or.inl hq
      | · rcases List.mem_append.mp hq with h | h
          · exact Or.inl h
          · simp at h; subst h; exact Or.inr rfl

theorem rvdpLoop_sound (graph : Graph) (des : List String) (src dst : String) :
    ∀ fuel st,
      (∀ q ∈ st.queue, QWalk graph des src dst q) →
      rvdpLoop graph des dst fuel st = true →
      ∃ w : List String, w.head? = some src ∧ w.getLast? = some dst ∧
        pathLinked graph w ∧ 3 ≤ w.length ∧ hasDiffEdge des w := by
  intro fuel
  induction fuel with
  | zero => intro st _ h; simp [rvdpLoop] at h
  | succ fuel ih =>
    intro st hq h
    simp only [rvdpLoop] at h
    rcases hqueue : st.queue with _ | ⟨⟨node, hasDiff⟩, rest⟩
    · simp only [hqueue] at h
      exact absurd h (by simp)
    · simp only [hqueue] at h
      have hmemq : (node, hasDiff) ∈ st.queue := by
        rw [hqueue]; exact List.mem_cons_self _ _
      by_cases hdst : node = dst ∧ hasDiff = true
      · obtain ⟨hd, hb⟩ := hdst
        subst hd
        obtain ⟨w, h1, h2, h3, _, h5, h6⟩ := hq (node, hasDiff) hmemq
        exact ⟨w, h1, h2, h3, h5 rfl, h6 hb⟩
      · rw [if_neg hdst] at h
        refine ih _ ?_ h
        -- every entry of the folded queue has a certifying walk
        obtain ⟨w0, hw1, hw2, hw3, hw4, _, hw6⟩ := hq (node, hasDiff) hmemq
        have hrest : ∀ q ∈ rest, QWalk graph des src dst q := fun q hqr =>
          hq q (hqueue ▸ List.mem_cons_of_mem _ hqr)
        have hfold : ∀ (ds : List String), (∀ n ∈ ds, n ∈ adj graph node) →
            ∀ st' : RState, (∀ q ∈ st'.queue, QWalk graph des src dst q) →
            ∀ q ∈ (ds.foldl
              (fun s n =>
                rEnqueue (hasDiff || contains des (node ++ " -> " ++ n)) n s)
              st').queue, QWalk graph des src dst q := by
          intro ds
          induction ds with
          | nil => intro _ st' hst'; exact hst'
          | cons n ds' ihds =>
            intro hds st' hst'
            refine ihds (fun x hx => hds x (List.mem_cons_of_mem _ hx)) _ ?_
            intro q hq'
            rcases rEnqueue_queue_sub _ _ _ q hq' with h' | h'
            · exact hst' q h'
            · subst h'
              refine ⟨w0 ++ [n], ?_, ?_, ?_, ?_, ?_, ?_⟩
              · rcases w0 with _ | ⟨a, t⟩
                · cases hw1
                · exact hw1
              · rw [List.getLast?_concat]
              · exact pathLinked_snoc graph w0 node n hw3 hw2
                  (hds n (List.mem_cons_self _ _))
              · rw [List.length_append]; omega
              · intro _; rw [List.length_append]; simp; omega
              · intro hflag
                rcases Bool.or_eq_true_iff.mp hflag with hf | hf
                · exact hasDiffEdge_snoc des w0 n (hw6 hf)
                · exact hasDiffEdge_last des w0 node n hw2
                    ((contains_iff_mem des _).mp hf)
        exact hfold (adj graph node) (fun n hn => hn) { st with queue := rest } hrest

/-- C9: `transitiveReduceEdges` drops a well-formed diff edge only when
its target is reachable from its source by a walk of more than one edge
lying inside the projection of the graph onto the diff-relevant nodes,
at least one edge of which is itself a diff edge.  (Contrapositive: an
edge whose only alternate connections use zero diff edges is never
dropped.) -/
theorem transitiveReduceEdges_sound (diffEdges : List String)
    (fullGraph : Graph) (diffNodes : List String) (edge src dst : String)
    (hmem : edge ∈ diffEdges)
    (hdrop : edge ∉ transitiveReduceEdges diffEdges fullGraph diffNodes)
    (hsplit : splitArrowStr edge = [src, dst]) :
    ∃ w : List String, w.head? = some src ∧ w.getLast? = some dst ∧
      pathLinked (subGraphOf fullGraph diffNodes) w ∧ 3 ≤ w.length ∧
      hasDiffEdge diffEdges w := by
  have hpred : ¬ (match splitArrowStr edge with
      | [src, dst] =>
        !(reachableViaDiffPath src dst (subGraphOf fullGraph diffNodes) diffEdges)
      | _ => false) = true := by
    intro hkeep
    exact hdrop (List.mem_filter.mpr ⟨hmem, hkeep⟩)
  rw [hsplit] at hpred
  simp only [Bool.not_eq_true', Bool.not_eq_false] at hpred
  have hreach : reachableViaDiffPath src dst
      (subGraphOf fullGraph diffNodes) diffEdges = true := by
    rcases hb : reachableViaDiffPath src dst
        (subGraphOf fullGraph diffNodes) diffEdges with _ | _
    · rw [hb] at hpred; simp at hpred
    · rfl
  rw [reachableViaDiffPath] at hreach
  refine rvdpLoop_sound (subGraphOf fullGraph diffNodes) diffEdges src dst _ _
    ?_ hreach
  -- the seed queue is certified
  have hseed : ∀ (ds : List String),
      (∀ n ∈ ds, n ∈ adj (subGraphOf fullGraph diffNodes) src) →
      ∀ st' : RState,
        (∀ q ∈ st'.queue, QWalk (subGraphOf fullGraph diffNodes) diffEdges src dst q) →
      ∀ q ∈ (ds.foldl
        (fun s n =>
          if n = dst then s
          else rEnqueue (contains diffEdges (src ++ " -> " ++ n)) n s)
        st').queue, QWalk (subGraphOf fullGraph diffNodes) diffEdges src dst q := by
    intro ds
    induction ds with
    | nil => intro _ st' hst'; exact hst'
    | cons n ds' ihds =>
      intro hds st' hst'
      refine ihds (fun x hx => hds x (List.mem_cons_of_mem _ hx)) _ ?_
      intro q hq'
      have hq2 : q ∈ (if n = dst then st'
          else rEnqueue (contains diffEdges (src ++ " -> " ++ n)) n st').queue := hq'
      split at hq2
      · exact hst' q hq2
      · rename_i hndst
        rcases rEnqueue_queue_sub _ _ _ q hq2 with h' | h'
        · exact hst' q h'
        · subst h'
          refine ⟨[src, n], rfl, rfl, ?_, by simp, fun h => absurd h hndst, ?_⟩
          · exact ⟨hds n (List.mem_cons_self _ _), trivial⟩
          · intro hflag
            exact Or.inl ((contains_iff_mem diffEdges _).mp hflag)
  exact hseed (adj (subGraphOf fullGraph diffNodes) src) (fun n hn => hn)
    ⟨[], [], []⟩ (by intro q hq; simp at hq)

/-- A three-edge diff where `a -> c` is explained by the diff path
`a -> b -> c`, so the reduction drops it. -/
def c9Edges : List String := ["a -> c", "a -> b", "b -> c"]

def c9Full : Graph := [("a", ["b", "c"]), ("b", ["c"])]

def c9Nodes : List String := ["a", "b", "c"]

theorem transitiveReduceEdges_sound_witness :
    ("a -> c" ∈ c9Edges ∧
      "a -> c" ∉ transitiveReduceEdges c9Edges c9Full c9Nodes ∧
      splitArrowStr "a -> c" = ["a", "c"]) ∧
    ∃ w : List String, w.head? = some "a" ∧ w.getLast? = some "c" ∧
      pathLinked (subGraphOf c9Full c9Nodes) w ∧ 3 ≤ w.length ∧
      hasDiffEdge c9Edges w :=
  ⟨⟨by decide, by decide, by decide⟩,
    transitiveReduceEdges_sound c9Edges c9Full c9Nodes "a -> c" "a" "c"
      (by decide) (by decide) (by decide)⟩

/-! ## Cycle Finder (part_014, Johnson's algorithm)

`findAllCyclesWithMaxLength` assigns every node a stable index via
sorted identifier order, then for each start index finds the strongly
connected component of the subgraph induced by indices ≥ start (a
modified Tarjan with an early return) and runs the `circuit` DFS with
blocked-sets inside it. -/

/-- Pointwise update of a function-modelled Go map or slice. -/
def updFun {α : Type} (f : Nat → α) (k : Nat) (v : α) : Nat → α :=
  fun x => if x = k then v else f x

/-- Sorted-insert without duplicates, building the model of the
`nodeSet` + `sort.Strings` block. -/
def insertSorted (s : String) : List String → List String
  | [] => [s]
  | t :: ts =>
    if strLt s t then s :: t :: ts
    else if s = t then t :: ts
    else t :: insertSorted s ts

/-- The sorted duplicate-free list of all graph nodes (sources and
targets); positions in this list are the node indices. -/
def sortedNodes (g : Graph) : List String :=
  (g.map Prod.fst ++ g.flatMap Prod.snd).foldr insertSorted []

/-- `hasSelfLoop` from part_014. -/
def hasSelfLoop (g : Graph) (nodes : List String) (nodeIdx : Nat) : Bool :=
  (adj g (nodes.getD nodeIdx "")).any (fun nb => nodes.indexOf nb = nodeIdx)

/-- State of the modified Tarjan search (`findSCCContaining`).
`indices` doubles as Go's `indices` map and its presence test. -/
structure TarjanState where
  idx : Nat
  indices : Nat → Option Nat
  lowlinks : Nat → Nat
  onStack : Nat → Bool
  stk : List Nat

/-- Pop the Tarjan stack (given reversed, top first) down to `v`,
returning the popped SCC in pop order and the remaining reversed
stack. -/
def popSCCrev (v : Nat) : List Nat → List Nat × List Nat
  | [] => ([], [])
  | w :: rest =>
    if w = v then ([w], rest)
    else
      let p := popSCCrev v rest
      (w :: p.1, p.2)

/-- The neighbour loop of `strongConnect`: restrict to indices ≥
`startIdx`, recurse into unvisited neighbours (propagating an early
return of an SCC containing `startIdx`), and do the usual lowlink
updates; `child` is the recursive call at one less fuel. -/
def scLoop (child : Nat → TarjanState → Option (List Nat) × TarjanState)
    (nodes : List String) (startIdx v : Nat) :
    List String → TarjanState → Option (List Nat) × TarjanState
  | [], ts => (none, ts)
  | nb :: rest, ts =>
    let ni := nodes.indexOf nb
    if ni < startIdx then scLoop child nodes startIdx v rest ts
    else
      match ts.indices ni with
      | none =>
        let p := child ni ts
        match p.1 with
        | some r =>
          if startIdx ∈ r then (some r, p.2)
          else
            let ts := p.2
            let ts :=
              if ts.lowlinks ni < ts.lowlinks v then
                { ts with lowlinks := updFun ts.lowlinks v (ts.lowlinks ni) }
              else ts
            scLoop child nodes startIdx v rest ts
        | none =>
          let ts := p.2
          let ts :=
            if ts.lowlinks ni < ts.lowlinks v then
              { ts with lowlinks := updFun ts.lowlinks v (ts.lowlinks ni) }
            else ts
          scLoop child nodes startIdx v rest ts
      | some ival =>
        if ts.onStack ni then
          let ts :=
            if ival < ts.lowlinks v then
              { ts with lowlinks := updFun ts.lowlinks v ival }
            else ts
          scLoop child nodes startIdx v rest ts
        else scLoop child nodes startIdx v rest ts

/-- `strongConnect` from `findSCCContaining` (part_014), with the early
return of an SCC that contains `startIdx` and has more than one node or
a self-loop on the start. -/
def strongConnect (g : Graph) (nodes : List String) (startIdx : Nat) :
    Nat → Nat → TarjanState → Option (List Nat) × TarjanState
  | 0, _, ts => (none, ts)
  | fuel + 1, v, ts =>
    let ts : TarjanState :=
      { idx := ts.idx + 1,
        indices := updFun ts.indices v (some ts.idx),
        lowlinks := updFun ts.lowlinks v ts.idx,
        onStack := updFun ts.onStack v true,
        stk := ts.stk ++ [v] }
    let p := scLoop (fun ni ts' => strongConnect g nodes startIdx fuel ni ts')
      nodes startIdx v (adj g (nodes.getD v "")) ts
    match p.1 with
    | some r => (some r, p.2)
    | none =>
      let ts := p.2
      if ts.lowlinks v = (ts.indices v).getD 0 then
        let q := popSCCrev v ts.stk.reverse
        let scc := q.1
        let ts := { ts with
          stk := q.2.reverse,
          onStack := scc.foldl (fun f w => updFun f w false) ts.onStack }
        if startIdx ∈ scc ∧ (1 < scc.length ∨ hasSelfLoop g nodes startIdx = true)
        then (some scc, ts)
        else (none, ts)
      else (none, ts)

/-- The `for i := startIdx; i < n; i++` scan of `findSCCContaining`,
threading the Tarjan state. -/
def sccScan (g : Graph) (nodes : List String) (startIdx : Nat) :
    List Nat → TarjanState → Option (List Nat)
  | [], _ => none
  | i :: rest, ts =>
    match ts.indices i with
    | some _ => sccScan g nodes startIdx rest ts
    | none =>
      let p := strongConnect g nodes startIdx (nodes.length + 2) i ts
      match p.1 with
      | some r =>
        if startIdx ∈ r then some r else sccScan g nodes startIdx rest p.2
      | none => sccScan g nodes startIdx rest p.2

/-- `findSCCContaining` from part_014. -/
def findSCCContaining (g : Graph) (nodes : List String) (startIdx : Nat) :
    Option (List Nat) :=
  let ts0 : TarjanState := ⟨0, fun _ => none, fun _ => 0, fun _ => false, []⟩
  let p := strongConnect g nodes startIdx (nodes.length + 2) startIdx ts0
  match p.1 with
  | some r => some r
  | none =>
    sccScan g nodes startIdx
      (List.range' startIdx (nodes.length - startIdx)) p.2

/-- State of the Johnson `circuit` DFS. -/
structure CFState where
  blocked : Nat → Bool
  blockedMap : Nat → List Nat
  stack : List Nat
  cycles : List Chain

/-- Set-insert into a B-set (Go `blockedMap[n][v] = true`). -/
def bmInsert (l : List Nat) (v : Nat) : List Nat :=
  if v ∈ l then l else l ++ [v]

/-- `unblock` from part_014: clear the node's B-set and cascade into the
blocked members.  (The cascade never revisits the cleared set: additions
happen only in `circuit`, and `v` itself stays unblocked.) -/
def unblock : Nat → Nat → CFState → CFState
  | 0, _, st => st
  | fuel + 1, v, st =>
    let ws := st.blockedMap v
    let st := { st with
      blocked := updFun st.blocked v false,
      blockedMap := updFun st.blockedMap v [] }
    ws.foldl (fun s w => if s.blocked w then unblock fuel w s else s) st

/-- The neighbour loop of `circuit`: record a cycle when the neighbour
is the start (subject to the length cap), recurse into unblocked
neighbours while the stack is below the cap; `child` is the recursive
call at one less fuel. -/
def circuitLoop (child : Nat → CFState → Bool × CFState)
    (nodes : List String) (maxLength : Nat) (start : Nat) (scc : List Nat) :
    List String → Bool → CFState → Bool × CFState
  | [], found, st => (found, st)
  | nb :: rest, found, st =>
    let ni := nodes.indexOf nb
    if ni ∉ scc then circuitLoop child nodes maxLength start scc rest found st
    else if ni = start then
      if maxLength = 0 ∨ st.stack.length ≤ maxLength then
        let cycle := st.stack.map (fun i => nodes.getD i "") ++ [nodes.getD start ""]
        circuitLoop child nodes maxLength start scc rest true
          { st with cycles := st.cycles ++ [cycle] }
      else circuitLoop child nodes maxLength start scc rest found st
    else if st.blocked ni = false ∧ (maxLength = 0 ∨ st.stack.length < maxLength)
    then
      let p := child ni st
      circuitLoop child nodes maxLength start scc rest (found || p.1) p.2
    else circuitLoop child nodes maxLength start scc rest found st

/-- `circuit` from part_014. -/
def circuit (g : Graph) (nodes : List String) (maxLength ubFuel : Nat) :
    Nat → Nat → Nat → List Nat → CFState → Bool × CFState
  | 0, _, _, _, st => (false, st)
  | fuel + 1, v, start, scc, st =>
    let st : CFState := { st with
      stack := st.stack ++ [v], blocked := updFun st.blocked v true }
    let p := circuitLoop
      (fun ni s => circuit g nodes maxLength ubFuel fuel ni start scc s)
      nodes maxLength start scc (adj g (nodes.getD v "")) false st
    let found := p.1
    let st := p.2
    let st :=
      if found then unblock ubFuel v st
      else
        (adj g (nodes.getD v "")).foldl (fun s nb =>
          let ni := nodes.indexOf nb
          if ni ∈ scc then
            { s with blockedMap := updFun s.blockedMap ni (bmInsert (s.blockedMap ni) v) }
          else s) st
    (found, { st with stack := st.stack.dropLast })

/-- `findAllCyclesWithMaxLength` from part_014 (`maxLength = 0` means
unbounded). -/
def findAllCyclesWithMaxLength (g : Graph) (maxLength : Nat) : List Chain :=
  let nodes := sortedNodes g
  let n := nodes.length
  let st0 : CFState := ⟨fun _ => false, fun _ => [], [], []⟩
  ((List.range n).foldl (fun st startIdx =>
    match findSCCContaining g nodes startIdx with
    | none => st
    | some scc =>
      let st := scc.foldl (fun s ni =>
        { s with blocked := updFun s.blocked ni false,
                 blockedMap := updFun s.blockedMap ni [] }) st
      (circuit g nodes maxLength (n + 2) (n + maxLength + 4)
        startIdx startIdx scc st).2) st0).cycles

/-- `findAllCycles` from part_014. -/
def findAllCycles (g : Graph) : List Chain := findAllCyclesWithMaxLength g 0

theorem mem_insertSorted (s x : String) :
    ∀ l, x ∈ insertSorted s l ↔ x = s ∨ x ∈ l
  | [] => by simp [insertSorted]
  | t :: ts => by
    simp only [insertSorted]
    split
    · simp [List.mem_cons]
    · split
      · rename_i hlt heq
        subst heq
        constructor
        · intro h; exact Or.inr h
        · rintro (h | h)
          · subst h; exact List.mem_cons_self _ _
          · exact h
      · rename_i hlt hne
        rw [List.mem_cons, List.mem_cons, mem_insertSorted s x ts]
        tauto

theorem pairwise_insertSorted (s : String) :
    ∀ l, List.Pairwise (fun a b => strLt a b = true) l →
      List.Pairwise (fun a b => strLt a b = true) (insertSorted s l)
  | [] => by intro _; simp [insertSorted]
  | t :: ts => by
    intro hp
    obtain ⟨ht, hts⟩ := List.pairwise_cons.mp hp
    simp only [insertSorted]
    split
    · rename_i hlt
      refine List.pairwise_cons.mpr ⟨?_, hp⟩
      intro b hb
      rcases List.mem_cons.mp hb with h | h
      · subst h; exact hlt
      · exact charListLt_trans _ _ _ hlt (ht b h)
    · split
      · exact hp
      · rename_i hnlt hne
        refine List.pairwise_cons.mpr ⟨?_, pairwise_insertSorted s ts hts⟩
        intro b hb
        rcases (mem_insertSorted s b ts).mp hb with h | h
        · rw [h]
          rcases charListLt_total t.data s.data with h' | h' | h'
          · exact h'
          · exact absurd h' (by simpa [strLt] using hnlt)
          · have hts' : t = s := by
              rcases t with ⟨td⟩
              rcases s with ⟨sd⟩
              simp only at h'
              rw [h']
            exact absurd hts'.symm hne
        · exact ht b h

theorem sortedNodes_pairwise (g : Graph) :
    List.Pairwise (fun a b => strLt a b = true) (sortedNodes g) := by
  unfold sortedNodes
  generalize (g.map Prod.fst ++ g.flatMap Prod.snd) = l
  induction l with
  | nil => simp
  | cons x rest ih => exact pairwise_insertSorted x _ ih

theorem mem_sortedNodes (g : Graph) (x : String) :
    x ∈ sortedNodes g ↔ x ∈ g.map Prod.fst ++ g.flatMap Prod.snd := by
  unfold sortedNodes
  generalize (g.map Prod.fst ++ g.flatMap Prod.snd) = l
  induction l with
  | nil => simp
  | cons y rest ih =>
    rw [List.foldr_cons, mem_insertSorted, ih, List.mem_cons]

theorem adj_sub_flatMap (g : Graph) (s x : String) :
    x ∈ adj g s → x ∈ g.flatMap Prod.snd := by
  induction g with
  | nil => intro h; cases h
  | cons p rest ih =>
    obtain ⟨k, ds⟩ := p
    simp only [adj]
    split
    · intro h
      simp only [List.flatMap_cons, List.mem_append]
      exact Or.inl h
    · intro h
      simp only [List.flatMap_cons, List.mem_append]
      exact Or.inr (ih h)

/-- An adjacency target is a graph node with a valid index, and the
index maps back to it. -/
theorem adj_target_index (g : Graph) (s x : String) (hx : x ∈ adj g s) :
    (sortedNodes g).indexOf x < (sortedNodes g).length ∧
      (sortedNodes g).getD ((sortedNodes g).indexOf x) "" = x := by
  have hmem : x ∈ sortedNodes g := by
    rw [mem_sortedNodes]
    exact List.mem_append.mpr (Or.inr (adj_sub_flatMap g s x hx))
  have hlt : (sortedNodes g).indexOf x < (sortedNodes g).length :=
    List.indexOf_lt_length.mpr hmem
  refine ⟨hlt, ?_⟩
  rw [List.getD_eq_getElem _ _ hlt]
  exact List.getElem_indexOf hlt

/-- Render a stack of node indices as module identifiers. -/
def mapNodes (nodes : List String) (l : List Nat) : List String :=
  l.map (fun i => nodes.getD i "")

/-- Shape of every cycle the finder records while anchored at `start`:
the rendered DFS stack (headed by the anchor, indices all ≥ the anchor's)
closed by the anchor, edge-linked, and with at most `maxLength` edges
when a cap is set. -/
def CycleShape (g : Graph) (nodes : List String) (maxLength : Nat)
    (c : Chain) : Prop :=
  ∃ start l, start < nodes.length ∧
    c = mapNodes nodes l ++ [nodes.getD start ""] ∧
    l ≠ [] ∧ l.head? = some start ∧
    (∀ i ∈ l, start ≤ i ∧ i < nodes.length) ∧
    pathLinked g c ∧
    (maxLength ≠ 0 → l.length ≤ maxLength)

theorem unblock_stack_cycles : ∀ (fuel v : Nat) (st : CFState),
    (unblock fuel v st).stack = st.stack ∧
      (unblock fuel v st).cycles = st.cycles
  | 0, _, _ => ⟨rfl, rfl⟩
  | fuel + 1, v, st => by
    simp only [unblock]
    have hfold : ∀ (ws : List Nat) (s : CFState),
        ((ws.foldl (fun s w => if s.blocked w then unblock fuel w s else s) s).stack
            = s.stack ∧
          (ws.foldl (fun s w => if s.blocked w then unblock fuel w s else s) s).cycles
            = s.cycles) := by
      intro ws
      induction ws with
      | nil => intro s; exact ⟨rfl, rfl⟩
      | cons w rest ih =>
        intro s
        simp only [List.foldl_cons]
        obtain ⟨h1, h2⟩ := ih (if s.blocked w then unblock fuel w s else s)
        constructor
        · rw [h1]
          split
          · exact (unblock_stack_cycles fuel w s).1
          · rfl
        · rw [h2]
          split
          · exact (unblock_stack_cycles fuel w s).2
          · rfl
    exact hfold _ _

theorem bmFold_stack_cycles (nodes : List String) (scc : List Nat) (v : Nat) :
    ∀ (ds : List String) (s : CFState),
      ((ds.foldl (fun s nb =>
          let ni := nodes.indexOf nb
          if ni ∈ scc then
            { s with blockedMap := updFun s.blockedMap ni (bmInsert (s.blockedMap ni) v) }
          else s) s).stack = s.stack ∧
        (ds.foldl (fun s nb =>
          let ni := nodes.indexOf nb
          if ni ∈ scc then
            { s with blockedMap := updFun s.blockedMap ni (bmInsert (s.blockedMap ni) v) }
          else s) s).cycles = s.cycles) := by
  intro ds
  induction ds with
  | nil => intro s; exact ⟨rfl, rfl⟩
  | cons nb rest ih =>
    intro s
    simp only [List.foldl_cons]
    obtain ⟨h1, h2⟩ := ih _
    constructor
    · rw [h1]; split <;> rfl
    · rw [h2]; split <;> rfl

/-- Index order in the sorted node list is string order. -/
theorem sortedNodes_le (g : Graph) (i j : Nat) (hi : i < (sortedNodes g).length)
    (hj : j < (sortedNodes g).length) (hij : i ≤ j) :
    strLe ((sortedNodes g).getD i "") ((sortedNodes g).getD j "") = true := by
  rcases Nat.lt_or_ge i j with h | h
  · have := (List.pairwise_iff_get.mp (sortedNodes_pairwise g)) ⟨i, hi⟩ ⟨j, hj⟩ h
    rw [List.getD_eq_getElem _ _ hi, List.getD_eq_getElem _ _ hj]
    exact strLe_of_lt _ _ (by simpa [List.get_eq_getElem] using this)
  · have hji : i = j := Nat.le_antisymm hij h
    subst hji
    exact strLe_refl _

theorem circuitLoop_spec (g : Graph) (nodes : List String) (maxLength : Nat)
    (start : Nat) (scc : List Nat) (v : Nat)
    (child : Nat → CFState → Bool × CFState)
    (hnodes : nodes = sortedNodes g)
    (hstart : start < nodes.length)
    (hscc : ∀ i ∈ scc, start ≤ i ∧ i < nodes.length)
    (hchild : ∀ ni s, ni ∈ scc → s.stack ≠ [] →
      s.stack.head? = some start →
      (∀ i ∈ s.stack, start ≤ i ∧ i < nodes.length) →
      pathLinked g (mapNodes nodes (s.stack ++ [ni])) →
      (child ni s).2.stack = s.stack ∧
        ∃ new, (child ni s).2.cycles = s.cycles ++ new ∧
          ∀ c ∈ new, CycleShape g nodes maxLength c) :
    ∀ (ds : List String) (found : Bool) (st : CFState),
      (∀ nb ∈ ds, nb ∈ adj g (nodes.getD v "")) →
      st.stack ≠ [] →
      st.stack.head? = some start →
      (∀ i ∈ st.stack, start ≤ i ∧ i < nodes.length) →
      pathLinked g (mapNodes nodes st.stack) →
      (mapNodes nodes st.stack).getLast? = some (nodes.getD v "") →
      (circuitLoop child nodes maxLength start scc ds found st).2.stack = st.stack ∧
        ∃ new, (circuitLoop child nodes maxLength start scc ds found st).2.cycles =
            st.cycles ++ new ∧ ∀ c ∈ new, CycleShape g nodes maxLength c := by
  subst hnodes
  intro ds
  induction ds with
  | nil =>
    intro found st _ _ _ _ _ _
    exact ⟨rfl, ⟨[], by simp [circuitLoop], by simp⟩⟩
  | cons nb rest ih =>
    intro found st hds hne hhead hbounds hlink hlast
    have hnbadj : nb ∈ adj g ((sortedNodes g).getD v "") := hds nb (List.mem_cons_self _ _)
    have hrest : ∀ x ∈ rest, x ∈ adj g ((sortedNodes g).getD v "") :=
      fun x hx => hds x (List.mem_cons_of_mem _ hx)
    obtain ⟨hnb1, hnb2⟩ := adj_target_index g ((sortedNodes g).getD v "") nb hnbadj
    simp only [circuitLoop]
    by_cases h1 : (sortedNodes g).indexOf nb ∈ scc
    · rw [if_neg (by simpa using h1)]
      by_cases h2 : (sortedNodes g).indexOf nb = start
      · rw [if_pos h2]
        by_cases h3 : maxLength = 0 ∨ st.stack.length ≤ maxLength
        · rw [if_pos h3]
          -- a cycle is recorded
          have hcyc : CycleShape g (sortedNodes g) maxLength
              (mapNodes (sortedNodes g) st.stack ++ [(sortedNodes g).getD start ""]) := by
            refine ⟨start, st.stack, hstart, rfl, hne, hhead, hbounds, ?_, ?_⟩
            · refine pathLinked_snoc g (mapNodes (sortedNodes g) st.stack)
                ((sortedNodes g).getD v "") ((sortedNodes g).getD start "") hlink hlast ?_
              rw [← h2, hnb2]
              exact hnbadj
            · intro h0
              rcases h3 with h3 | h3
              · exact absurd h3 h0
              · simpa [mapNodes] using h3
          obtain ⟨r1, new, r2, r3⟩ := ih true
            { st with cycles := st.cycles ++
                [mapNodes (sortedNodes g) st.stack ++ [(sortedNodes g).getD start ""]] }
            hrest hne hhead hbounds hlink hlast
          refine ⟨r1, ⟨(mapNodes (sortedNodes g) st.stack ++ [(sortedNodes g).getD start ""]) :: new, ?_, ?_⟩⟩
          · have heq : st.cycles ++
                (mapNodes (sortedNodes g) st.stack ++ [(sortedNodes g).getD start ""]) :: new =
                (st.cycles ++
                  [mapNodes (sortedNodes g) st.stack ++ [(sortedNodes g).getD start ""]]) ++ new := by
              simp
            rw [heq]
            exact r2
          · intro c hc
            rcases List.mem_cons.mp hc with h | h
            · rw [h]; exact hcyc
            · exact r3 c h
        · rw [if_neg h3]
          exact ih found st hrest hne hhead hbounds hlink hlast
      · rw [if_neg h2]
        by_cases h4 : st.blocked ((sortedNodes g).indexOf nb) = false ∧
            (maxLength = 0 ∨ st.stack.length < maxLength)
        · rw [if_pos h4]
          have hlinkni : pathLinked g
              (mapNodes (sortedNodes g) (st.stack ++ [(sortedNodes g).indexOf nb])) := by
            have : mapNodes (sortedNodes g) (st.stack ++ [(sortedNodes g).indexOf nb]) =
                mapNodes (sortedNodes g) st.stack ++ [(sortedNodes g).getD ((sortedNodes g).indexOf nb) ""] := by
              simp [mapNodes]
            rw [this, hnb2]
            exact pathLinked_snoc g (mapNodes (sortedNodes g) st.stack)
              ((sortedNodes g).getD v "") nb hlink hlast hnbadj
          obtain ⟨c1, cnew, c2, c3⟩ :=
            hchild ((sortedNodes g).indexOf nb) st h1 hne hhead hbounds hlinkni
          obtain ⟨r1, rnew, r2, r3⟩ := ih (found || (child ((sortedNodes g).indexOf nb) st).1)
            (child ((sortedNodes g).indexOf nb) st).2
            hrest (by rw [c1]; exact hne)
            (by rw [c1]; exact hhead) (by rw [c1]; exact hbounds)
            (by rw [c1]; exact hlink) (by rw [c1]; exact hlast)
          refine ⟨by rw [r1, c1], ⟨cnew ++ rnew, ?_, ?_⟩⟩
          · rw [r2, c2, List.append_assoc]
          · intro c hc
            rcases List.mem_append.mp hc with h | h
            · exact c3 c h
            · exact r3 c h
        · rw [if_neg h4]
          exact ih found st hrest hne hhead hbounds hlink hlast
    · rw [if_pos (by simpa using h1)]
      exact ih found st hrest hne hhead hbounds hlink hlast

theorem circuit_spec (g : Graph) (maxLength ubFuel : Nat) :
    ∀ (fuel v start : Nat) (scc : List Nat) (st : CFState),
      start < (sortedNodes g).length →
      (∀ i ∈ scc, start ≤ i ∧ i < (sortedNodes g).length) →
      start ≤ v → v < (sortedNodes g).length →
      (st.stack.head? = some start ∨ (st.stack = [] ∧ v = start)) →
      (∀ i ∈ st.stack, start ≤ i ∧ i < (sortedNodes g).length) →
      pathLinked g (mapNodes (sortedNodes g) (st.stack ++ [v])) →
      (circuit g (sortedNodes g) maxLength ubFuel fuel v start scc st).2.stack = st.stack ∧
        ∃ new,
          (circuit g (sortedNodes g) maxLength ubFuel fuel v start scc st).2.cycles =
            st.cycles ++ new ∧
          ∀ c ∈ new, CycleShape g (sortedNodes g) maxLength c
  | 0, v, start, scc, st => by
    intro _ _ _ _ _ _ _
    exact ⟨rfl, ⟨[], by simp [circuit], by simp⟩⟩
  | fuel + 1, v, start, scc, st => by
    intro hstart hscc hsv hvn hhead hbounds hlink
    have hpushne : st.stack ++ [v] ≠ [] := by simp
    have hpushhead : (st.stack ++ [v]).head? = some start := by
      rcases hhead with h | ⟨h1, h2⟩
      · cases hs : st.stack with
        | nil => rw [hs] at h; simp at h
        | cons a tl =>
          rw [hs] at h
          simp at h
          simp [hs, h]
      · simp [h1, h2]
    have hpushbounds : ∀ i ∈ st.stack ++ [v],
        start ≤ i ∧ i < (sortedNodes g).length := by
      intro i hi
      rcases List.mem_append.mp hi with h | h
      · exact hbounds i h
      · simp at h
        rw [h]
        exact ⟨hsv, hvn⟩
    have hpushlast : (mapNodes (sortedNodes g) (st.stack ++ [v])).getLast?
        = some ((sortedNodes g).getD v "") := by
      have : mapNodes (sortedNodes g) (st.stack ++ [v])
          = mapNodes (sortedNodes g) st.stack ++ [(sortedNodes g).getD v ""] := by
        simp [mapNodes]
      rw [this, List.getLast?_concat]
    have hchild : ∀ ni s, ni ∈ scc → s.stack ≠ [] →
        s.stack.head? = some start →
        (∀ i ∈ s.stack, start ≤ i ∧ i < (sortedNodes g).length) →
        pathLinked g (mapNodes (sortedNodes g) (s.stack ++ [ni])) →
        ((fun ni s => circuit g (sortedNodes g) maxLength ubFuel fuel ni start scc s)
            ni s).2.stack = s.stack ∧
          ∃ new, ((fun ni s => circuit g (sortedNodes g) maxLength ubFuel fuel ni start scc s)
              ni s).2.cycles = s.cycles ++ new ∧
            ∀ c ∈ new, CycleShape g (sortedNodes g) maxLength c := by
      intro ni s hni hsne hshead hsbounds hslink
      exact circuit_spec g maxLength ubFuel fuel ni start scc s hstart hscc
        (hscc ni hni).1 (hscc ni hni).2 (Or.inl hshead) hsbounds hslink
    obtain ⟨l1, lnew, l2, l3⟩ := circuitLoop_spec g (sortedNodes g) maxLength start scc v
      (fun ni s => circuit g (sortedNodes g) maxLength ubFuel fuel ni start scc s)
      rfl hstart hscc hchild (adj g ((sortedNodes g).getD v ""))
      false { st with stack := st.stack ++ [v], blocked := updFun st.blocked v true }
      (fun _ h => h) hpushne hpushhead hpushbounds hlink hpushlast
    simp only [circuit]
    set p := circuitLoop
      (fun ni s => circuit g (sortedNodes g) maxLength ubFuel fuel ni start scc s)
      (sortedNodes g) maxLength start scc (adj g ((sortedNodes g).getD v ""))
      false { st with stack := st.stack ++ [v], blocked := updFun st.blocked v true }
      with hp
    by_cases hf : p.1 = true
    · rw [if_pos hf]
      obtain ⟨u1, u2⟩ := unblock_stack_cycles ubFuel v p.2
      constructor
      · show (unblock ubFuel v p.2).stack.dropLast = st.stack
        rw [u1, l1]
        exact List.dropLast_concat
      · exact ⟨lnew, by rw [u2, l2], l3⟩
    · rw [if_neg hf]
      obtain ⟨b1, b2⟩ := bmFold_stack_cycles (sortedNodes g) scc v
        (adj g ((sortedNodes g).getD v "")) p.2
      constructor
      · show ((adj g ((sortedNodes g).getD v "")).foldl _ p.2).stack.dropLast = st.stack
        rw [b1, l1]
        exact List.dropLast_concat
      · exact ⟨lnew, by rw [b2, l2], l3⟩

theorem popSCCrev_sub (v : Nat) :
    ∀ l : List Nat, (∀ x ∈ (popSCCrev v l).1, x ∈ l) ∧
      (∀ x ∈ (popSCCrev v l).2, x ∈ l)
  | [] => ⟨by simp [popSCCrev], by simp [popSCCrev]⟩
  | w :: rest => by
    simp only [popSCCrev]
    by_cases h : w = v
    · rw [if_pos h]
      constructor
      · intro x hx
        simp at hx
        simp [hx]
      · intro x hx
        exact List.mem_cons_of_mem _ hx
    · rw [if_neg h]
      obtain ⟨h1, h2⟩ := popSCCrev_sub v rest
      constructor
      · intro x hx
        rcases List.mem_cons.mp hx with h | h
        · simp [h]
        · exact List.mem_cons_of_mem _ (h1 x h)
      · intro x hx
        exact List.mem_cons_of_mem _ (h2 x hx)

theorem scLoop_bounds (g : Graph) (startIdx v n : Nat)
    (child : Nat → TarjanState → Option (List Nat) × TarjanState)
    (hchild : ∀ ni ts, startIdx ≤ ni → ni < n →
      (∀ i ∈ ts.stk, startIdx ≤ i ∧ i < n) →
      ((∀ i ∈ (child ni ts).2.stk, startIdx ≤ i ∧ i < n) ∧
        ∀ r, (child ni ts).1 = some r → ∀ i ∈ r, startIdx ≤ i ∧ i < n)) :
    ∀ (ds : List String) (ts : TarjanState),
      (∀ nb ∈ ds, (sortedNodes g).indexOf nb < n) →
      (∀ i ∈ ts.stk, startIdx ≤ i ∧ i < n) →
      ((∀ i ∈ (scLoop child (sortedNodes g) startIdx v ds ts).2.stk,
          startIdx ≤ i ∧ i < n) ∧
        ∀ r, (scLoop child (sortedNodes g) startIdx v ds ts).1 = some r →
          ∀ i ∈ r, startIdx ≤ i ∧ i < n) := by
  intro ds
  induction ds with
  | nil =>
    intro ts _ hts
    exact ⟨hts, fun r hr => by simp [scLoop] at hr⟩
  | cons nb rest ih =>
    intro ts hds hts
    have hnb : (sortedNodes g).indexOf nb < n := hds nb (List.mem_cons_self _ _)
    have hrest : ∀ x ∈ rest, (sortedNodes g).indexOf x < n :=
      fun x hx => hds x (List.mem_cons_of_mem _ hx)
    simp only [scLoop]
    by_cases h1 : (sortedNodes g).indexOf nb < startIdx
    · rw [if_pos h1]
      exact ih ts hrest hts
    · rw [if_neg h1]
      rcases hidx : ts.indices ((sortedNodes g).indexOf nb) with _ | ival
      · simp only [hidx]
        obtain ⟨c1, c2⟩ :=
          hchild ((sortedNodes g).indexOf nb) ts (Nat.le_of_not_lt h1) hnb hts
        rcases hp : (child ((sortedNodes g).indexOf nb) ts).1 with _ | r
        · simp only [hp]
          split
          · exact ih _ hrest c1
          · exact ih _ hrest c1
        · simp only [hp]
          by_cases hmem : startIdx ∈ r
          · rw [if_pos hmem]
            refine ⟨c1, ?_⟩
            intro r' hr'
            have : r = r' := by injection hr'
            rw [← this]
            exact c2 r hp
          · rw [if_neg hmem]
            split
            · exact ih _ hrest c1
            · exact ih _ hrest c1
      · simp only [hidx]
        by_cases hon : ts.onStack ((sortedNodes g).indexOf nb) = true
        · rw [if_pos hon]
          split
          · exact ih _ hrest hts
          · exact ih _ hrest hts
        · rw [if_neg hon]
          exact ih _ hrest hts

theorem strongConnect_bounds (g : Graph) (startIdx n : Nat)
    (hn : n = (sortedNodes g).length) :
    ∀ (fuel v : Nat) (ts : TarjanState),
      startIdx ≤ v → v < n →
      (∀ i ∈ ts.stk, startIdx ≤ i ∧ i < n) →
      ((∀ i ∈ (strongConnect g (sortedNodes g) startIdx fuel v ts).2.stk,
          startIdx ≤ i ∧ i < n) ∧
        ∀ r, (strongConnect g (sortedNodes g) startIdx fuel v ts).1 = some r →
          ∀ i ∈ r, startIdx ≤ i ∧ i < n)
  | 0, v, ts => by
    intro _ _ hts
    exact ⟨hts, fun r hr => by simp [strongConnect] at hr⟩
  | fuel + 1, v, ts => by
    intro hsv hvn hts
    have hpush : ∀ i ∈ ts.stk ++ [v], startIdx ≤ i ∧ i < n := by
      intro i hi
      rcases List.mem_append.mp hi with h | h
      · exact hts i h
      · simp at h
        rw [h]
        exact ⟨hsv, hvn⟩
    have hds : ∀ nb ∈ adj g ((sortedNodes g).getD v ""),
        (sortedNodes g).indexOf nb < n := by
      intro nb hnb
      rw [hn]
      exact (adj_target_index g ((sortedNodes g).getD v "") nb hnb).1
    obtain ⟨s1, s2⟩ := scLoop_bounds g startIdx v n
      (fun ni ts' => strongConnect g (sortedNodes g) startIdx fuel ni ts')
      (fun ni ts' h1 h2 h3 => strongConnect_bounds g startIdx n hn fuel ni ts' h1 h2 h3)
      (adj g ((sortedNodes g).getD v ""))
      { idx := ts.idx + 1,
        indices := updFun ts.indices v (some ts.idx),
        lowlinks := updFun ts.lowlinks v ts.idx,
        onStack := updFun ts.onStack v true,
        stk := ts.stk ++ [v] }
      hds hpush
    simp only [strongConnect]
    rcases hp : (scLoop
        (fun ni ts' => strongConnect g (sortedNodes g) startIdx fuel ni ts')
        (sortedNodes g) startIdx v (adj g ((sortedNodes g).getD v ""))
        { idx := ts.idx + 1,
          indices := updFun ts.indices v (some ts.idx),
          lowlinks := updFun ts.lowlinks v ts.idx,
          onStack := updFun ts.onStack v true,
          stk := ts.stk ++ [v] }).1 with _ | r
    · simp only [hp]
      rw [hp] at s2
      set p2 := (scLoop
        (fun ni ts' => strongConnect g (sortedNodes g) startIdx fuel ni ts')
        (sortedNodes g) startIdx v (adj g ((sortedNodes g).getD v ""))
        { idx := ts.idx + 1,
          indices := updFun ts.indices v (some ts.idx),
          lowlinks := updFun ts.lowlinks v ts.idx,
          onStack := updFun ts.onStack v true,
          stk := ts.stk ++ [v] }).2 with hp2
    -- s1 bounds p2.stk
      have hpop := popSCCrev_sub v p2.stk.reverse
      have hpop1 : ∀ x ∈ (popSCCrev v p2.stk.reverse).1, startIdx ≤ x ∧ x < n := by
        intro x hx
        exact s1 x (List.mem_reverse.mp (hpop.1 x hx))
      have hpop2 : ∀ x ∈ (popSCCrev v p2.stk.reverse).2.reverse,
          startIdx ≤ x ∧ x < n := by
        intro x hx
        exact s1 x (List.mem_reverse.mp (hpop.2 x (List.mem_reverse.mp hx)))
      by_cases hll : p2.lowlinks v = (p2.indices v).getD 0
      · rw [if_pos hll]
        by_cases hin : startIdx ∈ (popSCCrev v p2.stk.reverse).1 ∧
            (1 < (popSCCrev v p2.stk.reverse).1.length ∨
              hasSelfLoop g (sortedNodes g) startIdx = true)
        · rw [if_pos hin]
          refine ⟨hpop2, ?_⟩
          intro r' hr'
          have : (popSCCrev v p2.stk.reverse).1 = r' := by injection hr'
          rw [← this]
          exact hpop1
        · rw [if_neg hin]
          exact ⟨hpop2, fun r' hr' => by simp at hr'⟩
      · rw [if_neg hll]
        exact ⟨s1, fun r' hr' => by simp at hr'⟩
    · simp only [hp]
      rw [hp] at s2
      refine ⟨s1, ?_⟩
      intro r' hr'
      have : r = r' := by injection hr'
      rw [← this]
      exact s2 r rfl

theorem sccScan_bounds (g : Graph) (startIdx n : Nat)
    (hn : n = (sortedNodes g).length) :
    ∀ (is : List Nat) (ts : TarjanState),
      (∀ i ∈ is, startIdx ≤ i ∧ i < n) →
      (∀ i ∈ ts.stk, startIdx ≤ i ∧ i < n) →
      ∀ r, sccScan g (sortedNodes g) startIdx is ts = some r →
        ∀ i ∈ r, startIdx ≤ i ∧ i < n := by
  intro is
  induction is with
  | nil =>
    intro ts _ _ r hr
    simp [sccScan] at hr
  | cons i rest ih =>
    intro ts his hts r hr
    have hi : startIdx ≤ i ∧ i < n := his i (List.mem_cons_self _ _)
    have hrest : ∀ x ∈ rest, startIdx ≤ x ∧ x < n :=
      fun x hx => his x (List.mem_cons_of_mem _ hx)
    simp only [sccScan] at hr
    rcases hidx : ts.indices i with _ | ival
    · rw [hidx] at hr
      simp only at hr
      obtain ⟨s1, s2⟩ := strongConnect_bounds g startIdx n hn
        ((sortedNodes g).length + 2) i ts hi.1 hi.2 hts
      rcases hp : (strongConnect g (sortedNodes g) startIdx
          ((sortedNodes g).length + 2) i ts).1 with _ | r'
      · rw [hp] at hr
        simp only at hr
        exact ih _ hrest s1 r hr
      · rw [hp] at hr
        simp only at hr
        by_cases hmem : startIdx ∈ r'
        · rw [if_pos hmem] at hr
          have : r' = r := by injection hr
          rw [← this]
          exact s2 r' hp
        · rw [if_neg hmem] at hr
          exact ih _ hrest s1 r hr
    · rw [hidx] at hr
      simp only at hr
      exact ih _ hrest hts r hr

theorem findSCCContaining_bounds (g : Graph) (startIdx : Nat)
    (hstart : startIdx < (sortedNodes g).length) :
    ∀ scc, findSCCContaining g (sortedNodes g) startIdx = some scc →
      ∀ i ∈ scc, startIdx ≤ i ∧ i < (sortedNodes g).length := by
  intro scc hscc
  obtain ⟨s1, s2⟩ := strongConnect_bounds g startIdx (sortedNodes g).length rfl
    ((sortedNodes g).length + 2) startIdx
    ⟨0, fun _ => none, fun _ => 0, fun _ => false, []⟩
    (Nat.le_refl _) hstart (by simp)
  simp only [findSCCContaining] at hscc
  rcases hp : (strongConnect g (sortedNodes g) startIdx
      ((sortedNodes g).length + 2) startIdx
      ⟨0, fun _ => none, fun _ => 0, fun _ => false, []⟩).1 with _ | r
  · rw [hp] at hscc
    simp only at hscc
    refine sccScan_bounds g startIdx (sortedNodes g).length rfl
      (List.range' startIdx ((sortedNodes g).length - startIdx)) _ ?_ s1 scc hscc
    intro i hi
    rw [List.mem_range'] at hi
    obtain ⟨k, hk1, hk2⟩ := hi
    omega
  · rw [hp] at hscc
    simp only at hscc
    have : r = scc := by injection hscc
    rw [← this]
    exact s2 r hp

theorem resetFold_stack_cycles :
    ∀ (scc : List Nat) (st : CFState),
      ((scc.foldl (fun s ni =>
          { s with blocked := updFun s.blocked ni false,
                   blockedMap := updFun s.blockedMap ni [] }) st).stack = st.stack ∧
        (scc.foldl (fun s ni =>
          { s with blocked := updFun s.blocked ni false,
                   blockedMap := updFun s.blockedMap ni [] }) st).cycles = st.cycles)
  | [], _ => ⟨rfl, rfl⟩
  | ni :: rest, st => by
    simp only [List.foldl_cons]
    exact resetFold_stack_cycles rest _

theorem cyclesFold_shape (g : Graph) (maxLength : Nat) :
    ∀ (idxs : List Nat) (st : CFState),
      (∀ j ∈ idxs, j < (sortedNodes g).length) →
      st.stack = [] →
      (∀ c ∈ st.cycles, CycleShape g (sortedNodes g) maxLength c) →
      ((idxs.foldl (fun st startIdx =>
          match findSCCContaining g (sortedNodes g) startIdx with
          | none => st
          | some scc =>
            let st := scc.foldl (fun s ni =>
              { s with blocked := updFun s.blocked ni false,
                       blockedMap := updFun s.blockedMap ni [] }) st
            (circuit g (sortedNodes g) maxLength ((sortedNodes g).length + 2)
              ((sortedNodes g).length + maxLength + 4)
              startIdx startIdx scc st).2) st).stack = [] ∧
        ∀ c ∈ (idxs.foldl (fun st startIdx =>
          match findSCCContaining g (sortedNodes g) startIdx with
          | none => st
          | some scc =>
            let st := scc.foldl (fun s ni =>
              { s with blocked := updFun s.blocked ni false,
                       blockedMap := updFun s.blockedMap ni [] }) st
            (circuit g (sortedNodes g) maxLength ((sortedNodes g).length + 2)
              ((sortedNodes g).length + maxLength + 4)
              startIdx startIdx scc st).2) st).cycles,
          CycleShape g (sortedNodes g) maxLength c) := by
  intro idxs
  induction idxs with
  | nil =>
    intro st _ hstk hcyc
    exact ⟨hstk, hcyc⟩
  | cons startIdx rest ih =>
    intro st hidx hstk hcyc
    have hstart : startIdx < (sortedNodes g).length :=
      hidx startIdx (List.mem_cons_self _ _)
    have hrest : ∀ j ∈ rest, j < (sortedNodes g).length :=
      fun j hj => hidx j (List.mem_cons_of_mem _ hj)
    simp only [List.foldl_cons]
    rcases hfind : findSCCContaining g (sortedNodes g) startIdx with _ | scc
    · simp only [hfind]
      exact ih st hrest hstk hcyc
    · simp only [hfind]
      obtain ⟨r1, r2⟩ := resetFold_stack_cycles scc st
      obtain ⟨c1, cnew, c2, c3⟩ := circuit_spec g maxLength
        ((sortedNodes g).length + 2) ((sortedNodes g).length + maxLength + 4)
        startIdx startIdx scc
        (scc.foldl (fun s ni =>
          { s with blocked := updFun s.blocked ni false,
                   blockedMap := updFun s.blockedMap ni [] }) st)
        hstart (findSCCContaining_bounds g startIdx hstart scc hfind)
        (Nat.le_refl _) hstart
        (Or.inr ⟨by rw [r1]; exact hstk, rfl⟩)
        (by rw [r1, hstk]; intro i hi; simp at hi)
        (by rw [r1, hstk]; simp [mapNodes, pathLinked])
      refine ih _ hrest ?_ ?_
      · rw [c1, r1]; exact hstk
      · intro c hc
        rw [c2, r2] at hc
        rcases List.mem_append.mp hc with h | h
        · exact hcyc c h
        · exact c3 c h

theorem findAllCyclesWithMaxLength_shape (g : Graph) (maxLength : Nat) :
    ∀ c ∈ findAllCyclesWithMaxLength g maxLength,
      CycleShape g (sortedNodes g) maxLength c := by
  have h := cyclesFold_shape g maxLength (List.range (sortedNodes g).length)
    ⟨fun _ => false, fun _ => [], [], []⟩
    (fun j hj => List.mem_range.mp hj) rfl (by intro c hc; simp at hc)
  exact h.2

/-- Graph on which the length cap makes `circuit` record a cycle with a
repeated internal node (`b` occurs twice in one reported cycle at cap 4). -/
def c2G : Graph :=
  [("a", ["d", "b"]), ("b", ["c", "d", "b"]), ("c", ["d"]),
   ("d", ["e", "a"]), ("e", ["b"])]

/-- Graph on which the capped run is not the length-filtered unbounded
run: at cap 3 it returns nothing although a 3-edge cycle exists. -/
def c3G : Graph :=
  [("a", ["b", "c"]), ("b", ["c"]), ("c", ["d"]), ("d", ["a"])]

/-- C2: every cycle returned by `findAllCyclesWithMaxLength` (and hence
by `findAllCycles`, the `maxLength = 0` case) is a nonempty closed walk:
its first element equals its last element, consecutive elements are
graph edges, and it is anchored at its smallest member in Go string
order (every element of the cycle is `≥` the first).  The claim's
distinct-internal-nodes and no-two-rotations parts fail once a length
cap is active (see the counterexample). -/
theorem findAllCycles_closed_walk_anchored (g : Graph) (maxLength : Nat) :
    ∀ c ∈ findAllCyclesWithMaxLength g maxLength,
      ∃ a, c.head? = some a ∧ c.getLast? = some a ∧ pathLinked g c ∧
        ∀ x ∈ c, strLe a x = true := by
  intro c hc
  obtain ⟨start, l, hstart, hceq, hlne, hlhead, hbounds, hlink, _⟩ :=
    findAllCyclesWithMaxLength_shape g maxLength c hc
  refine ⟨(sortedNodes g).getD start "", ?_, ?_, hlink, ?_⟩
  · cases l with
    | nil => exact absurd rfl hlne
    | cons i tl =>
      have hi : i = start := by simpa using hlhead
      rw [hceq, hi]
      simp [mapNodes]
  · rw [hceq]
    exact List.getLast?_concat _
  · intro x hx
    rw [hceq] at hx
    rcases List.mem_append.mp hx with h | h
    · have h' : x ∈ List.map (fun i => (sortedNodes g).getD i "") l := h
      obtain ⟨i, hi, hxe⟩ := List.mem_map.mp h'
      rw [← hxe]
      exact sortedNodes_le g start i hstart (hbounds i hi).2 (hbounds i hi).1
    · rw [List.mem_singleton.mp h]
      exact strLe_refl _

theorem findAllCycles_closed_walk_anchored_witness :
    (["a", "d", "a"] : List String) ∈ findAllCyclesWithMaxLength c2G 0 ∧
      ∃ a, (["a", "d", "a"] : List String).head? = some a ∧
        (["a", "d", "a"] : List String).getLast? = some a ∧
        pathLinked c2G ["a", "d", "a"] ∧
        ∀ x ∈ (["a", "d", "a"] : List String), strLe a x = true :=
  ⟨by decide,
    findAllCycles_closed_walk_anchored c2G 0 ["a", "d", "a"] (by decide)⟩

/-- C2 counterexample: with cap 4 on `c2G` the finder reports the cycle
`a b b d a`, whose internal nodes are not pairwise distinct (`b`
repeats).  The stale-B-set cascade after a cap-truncated branch unblocks
`b` while `b` is still on the stack. -/
theorem findAllCycles_internal_repeat_counterexample :
    (["a", "b", "b", "d", "a"] : List String) ∈ findAllCyclesWithMaxLength c2G 4 ∧
      ¬ (["a", "b", "b", "d", "a"] : List String).dropLast.Nodup := by decide

/-- C3: a nonzero cap `k` is sound as an upper bound: every cycle
returned by `findAllCyclesWithMaxLength g k` has at most `k` edges
(at most `k + 1` listed nodes).  The claim's exactness direction fails:
the capped run is not the edge-count-`≤ k` filter of the unbounded run
(see the counterexample). -/
theorem findAllCyclesWithMaxLength_cap_bound (g : Graph) (k : Nat) (hk : k ≠ 0) :
    ∀ c ∈ findAllCyclesWithMaxLength g k, c.length ≤ k + 1 := by
  intro c hc
  obtain ⟨start, l, _, hceq, _, _, _, _, hcap⟩ :=
    findAllCyclesWithMaxLength_shape g k c hc
  have hl := hcap hk
  rw [hceq]
  simp [mapNodes]
  omega

theorem findAllCyclesWithMaxLength_cap_bound_witness :
    (4 : Nat) ≠ 0 ∧
      (["a", "c", "d", "a"] : List String) ∈ findAllCyclesWithMaxLength c3G 4 ∧
      (["a", "c", "d", "a"] : List String).length ≤ 4 + 1 :=
  ⟨by decide, by decide,
    findAllCyclesWithMaxLength_cap_bound c3G 4 (by decide)
      ["a", "c", "d", "a"] (by decide)⟩

/-- C3 counterexample: on `c3G` with cap 3 the finder returns no cycles
at all, although the unbounded run returns `a c d a`, a cycle with
exactly 3 edges, which the claimed filter equality would have to keep:
a cap-truncated branch poisons the blocked sets for shorter cycles. -/
theorem findAllCyclesWithMaxLength_cap_filter_counterexample :
    findAllCyclesWithMaxLength c3G 3 = [] ∧
      (["a", "c", "d", "a"] : List String) ∈ findAllCyclesWithMaxLength c3G 0 ∧
      (["a", "c", "d", "a"] : List String).length - 1 ≤ 3 := by decide

end Depstat
